import Mathlib

/-!
Verification of the RankForum reputation core.

The Rust source represents arbitrary-precision signed decimal integers as
strings (`TextualInteger` in `src/textual_integer.rs`, and the free functions
in `src/score.rs`, whose bodies are character-for-character the same
algorithms).  We embed strings as `List Char`, mirroring each Rust function.
`u8`/`u64` arithmetic is modelled as `Nat` with explicit `% 2^8` / `% 2^64`
at the operations where the Rust code can wrap.
-/

namespace RankForum

/-- Rust `c.to_digit(10).unwrap_or(0)` from the Rust source: a digit char maps to
its value, anything else to `0`. -/
def toDigit (c : Char) : Nat := if c.isDigit then c.toNat - 48 else 0

/-- Rust `std::char::from_digit(n, 10).unwrap()`: valid for `n < 10`. -/
def digitChar (n : Nat) : Char := Char.ofNat (48 + n)

/-- All characters of the list are decimal digits. -/
def AllDigits (l : List Char) : Prop := ∀ c ∈ l, c.isDigit

instance (l : List Char) : Decidable (AllDigits l) := by
  unfold AllDigits; infer_instance

/-- Numeric value of a least-significant-digit-first char list. -/
def valRev : List Char → Nat
  | [] => 0
  | c :: cs => toDigit c + 10 * valRev cs

/-- Numeric value of a most-significant-digit-first char list (the order the
Rust code stores strings in). -/
def valNat (l : List Char) : Nat := valRev l.reverse

/-- The loop of `add_positive`: both operands reversed (least significant
first), indexed in lockstep with missing positions read as digit `0`, carry
propagated; a final nonzero carry is appended. -/
def addLoop : List Char → List Char → Nat → List Char
  | [], [], carry => if 0 < carry then [digitChar carry] else []
  | x :: xs, [], carry =>
      digitChar ((toDigit x + 0 + carry) % 10) :: addLoop xs [] ((toDigit x + 0 + carry) / 10)
  | [], y :: ys, carry =>
      digitChar ((0 + toDigit y + carry) % 10) :: addLoop [] ys ((0 + toDigit y + carry) / 10)
  | x :: xs, y :: ys, carry =>
      digitChar ((toDigit x + toDigit y + carry) % 10) ::
        addLoop xs ys ((toDigit x + toDigit y + carry) / 10)

/-- Embedding of `TextualInteger::add_positive` / `textual_integer_add_positive`. -/
def add_positive (v1 v2 : List Char) : List Char :=
  (addLoop v1.reverse v2.reverse 0).reverse

/-- The loop of `sub_positive`: lockstep digit subtraction with borrow; the
final borrow (if any) is discarded, exactly as in the Rust code. -/
def subLoop : List Char → List Char → Nat → List Char
  | [], [], _ => []
  | x :: xs, [], borrow =>
      if toDigit x < borrow
      then digitChar (toDigit x + 10 - borrow) :: subLoop xs [] 1
      else digitChar (toDigit x - borrow) :: subLoop xs [] 0
  | [], y :: ys, borrow =>
      if 0 < toDigit y + borrow
      then digitChar (10 - (toDigit y + borrow)) :: subLoop [] ys 1
      else digitChar 0 :: subLoop [] ys 0
  | x :: xs, y :: ys, borrow =>
      if toDigit x < toDigit y + borrow
      then digitChar (toDigit x + 10 - (toDigit y + borrow)) :: subLoop xs ys 1
      else digitChar (toDigit x - (toDigit y + borrow)) :: subLoop xs ys 0

/-- Strip leading `'0'` characters while more than one character remains
(the `while result.starts_with('0') && result.len() > 1` loop). -/
def trimStart : List Char → List Char
  | '0' :: c :: cs => trimStart (c :: cs)
  | l => l

/-- Embedding of `TextualInteger::sub_positive` / `textual_integer_sub_positive`.
The Rust code pops trailing `'0'`s of the least-significant-first buffer
(these are leading zeros of the final number) and then reverses; popping from
the back and reversing equals reversing and trimming from the front. -/
def sub_positive (v1 v2 : List Char) : List Char :=
  trimStart (subLoop v1.reverse v2.reverse 0).reverse

/-- Comparison `value1 < value2` on Rust `String`s: byte-lexicographic comparison
(ASCII digits compare by code point). -/
def strLt : List Char → List Char → Bool
  | _, [] => false
  | [], _ :: _ => true
  | a :: as_, b :: bs =>
      if a < b then true else if b < a then false else strLt as_ bs

/-- Embedding of `TextualInteger::is_smaller` / `textual_integer_is_smaller`: compare by
length first, lexicographically when the lengths agree. -/
def is_smaller (v1 v2 : List Char) : Bool :=
  if v1.length < v2.length then true
  else if v2.length < v1.length then false
  else strLt v1 v2

/-- Buffer `vec![0; len1 + len2]` with `result_digits[i + j] += digit1 * digit2`. -/
def bump (l : List Nat) (k v : Nat) : List Nat := l.set k (l.getD k 0 + v)

/-- The double loop of `mul_positive`, accumulating digit products into the
position-indexed buffer. -/
def mulDigits (xs ys : List Char) : List Nat :=
  (List.range xs.length).foldl
    (fun acc i =>
      (List.range ys.length).foldl
        (fun acc2 j => bump acc2 (i + j) (toDigit (xs.getD i '0') * toDigit (ys.getD j '0')))
        acc)
    (List.replicate (xs.length + ys.length) 0)

/-- The carry-propagation loop of `mul_positive`, over the accumulated
digit sums; a final nonzero carry is appended. -/
def carryProp : List Nat → Nat → List Char
  | [], carry => if 0 < carry then [digitChar carry] else []
  | n :: ns, carry => digitChar ((n + carry) % 10) :: carryProp ns ((n + carry) / 10)

/-- Embedding of `TextualInteger::mul_positive` / `textual_integer_mul_positive`. -/
def mul_positive (v1 v2 : List Char) : List Char :=
  if v1 = ['0'] ∨ v2 = ['0'] then ['0']
  else trimStart (carryProp (mulDigits v1.reverse v2.reverse) 0).reverse

/-- Embedding of `TextualInteger::is_positive` / `textual_integer_is_positive`:
`!value.starts_with('-')`. -/
def is_positive (v : List Char) : Bool := !(v.head? = some '-')

/-- Embedding of `impl Sub for TextualInteger` / `textual_integer_sub`.  The match arms
mirror the `(negative1, negative2)` case split of the Rust code; the
recursive first arm is the both-negative case `(-a) - (-b) = b - a`. -/
def sub : List Char → List Char → List Char
  | '-' :: v1, '-' :: v2 => sub v2 v1
  | '-' :: v1, v2 => '-' :: add_positive v1 v2
  | v1, '-' :: v2 => add_positive v1 v2
  | v1, v2 =>
      if is_smaller v1 v2 then '-' :: sub_positive v2 v1 else sub_positive v1 v2
termination_by a b => a.length + b.length
decreasing_by simp; omega

/-- Embedding of `impl Add for TextualInteger` / `textual_integer_add`. -/
def add : List Char → List Char → List Char
  | '-' :: v1, '-' :: v2 => '-' :: add_positive v1 v2
  | '-' :: v1, v2 => sub v2 v1
  | v1, '-' :: v2 => sub v1 v2
  | v1, v2 => add_positive v1 v2

/-- Embedding of `impl Mul for TextualInteger`: note that the Rust code passes the
original (sign-carrying) operands to `mul_positive`, whose `to_digit`
calls read the `'-'` character as digit `0`. -/
def mul (a b : List Char) : List Char :=
  let result := mul_positive a b
  if xor (a.head? = some '-') (b.head? = some '-') then '-' :: result else result

/-- Embedding of `textual_integer_mul` from `score.rs`: unlike the trait impl it passes
the sign-stripped magnitudes to `mul_positive`. -/
def textual_integer_mul : List Char → List Char → List Char
  | '-' :: v1, '-' :: v2 => mul_positive v1 v2
  | '-' :: v1, v2 => '-' :: mul_positive v1 v2
  | v1, '-' :: v2 => '-' :: mul_positive v1 v2
  | v1, v2 => mul_positive v1 v2

/-- The `while current_exponent > 0` loop of `pow`, exponentiation by
squaring via `mul_positive`. -/
def powLoop : Nat → List Char → List Char → List Char
  | 0, res, _ => res
  | n + 1, res, cb =>
      powLoop ((n + 1) / 2) (if (n + 1) % 2 = 1 then mul_positive res cb else res)
        (mul_positive cb cb)
termination_by n => n
decreasing_by omega

/-- Embedding of `TextualInteger::pow` / `textual_integer_pow`. -/
def pow (base : List Char) (exponent : Nat) : List Char :=
  if exponent = 0 then ['1']
  else if exponent = 1 then base
  else powLoop exponent ['1'] base

/-- Embedding of `minimal_score_of_level` from `score.rs`: `100^level`. -/
def minimal_score_of_level (level : Nat) : List Char :=
  pow ['1', '0', '0'] level

/-- Embedding of `calculate_vote_score` from `score.rs`.  The `>` in the Rust source is
`String` comparison, i.e. byte-lexicographic. -/
def calculate_vote_score (target_level voter_level : Nat) : List Char :=
  let target_minimal_score := minimal_score_of_level target_level
  let voter_minimal_score := minimal_score_of_level voter_level
  if strLt (textual_integer_mul target_minimal_score ['1', '0']) voter_minimal_score
  then textual_integer_mul target_minimal_score ['1', '0']
  else voter_minimal_score

/-- The `loop` of `level` from `score.rs`.  `lvl` is the `u8` counter, kept
reduced mod 256.  The Rust arm for `len <= 2 && cur != "0"` sets the score
to `"0"` and increments; the following iteration then breaks, so the arm
returns the incremented counter directly. -/
def levelLoop : List Char → Nat → Nat
  | cur, lvl =>
    if cur = ['0'] then lvl
    else if cur.length ≤ 2 then (lvl + 1) % 256
    else levelLoop (cur.take (cur.length - 2)) ((lvl + 1) % 256)
termination_by cur _ => cur.length
decreasing_by simp; omega

/-- Embedding of `level` from `score.rs`.  The trailing `level - 1` is `u8` subtraction,
modelled as `+ 255 % 256`. -/
def level (score : List Char) : Nat :=
  if score.head? = some '-' then 1
  else if score = ['0'] then 0
  else (levelLoop score 0 + 255) % 256

/-! ### Basic facts about digit characters -/

theorem isDigit_toNat_bounds {c : Char} (h : c.isDigit = true) :
    48 ≤ c.toNat ∧ c.toNat ≤ 57 := by
  simp only [Char.isDigit, Bool.and_eq_true, decide_eq_true_eq] at h
  obtain ⟨h1, h2⟩ := h
  exact ⟨UInt32.le_toNat_of_le (by decide) h1, UInt32.toNat_le_of_le (by decide) h2⟩

theorem toDigit_le_nine (c : Char) : toDigit c ≤ 9 := by
  unfold toDigit
  split
  · rename_i h
    have := isDigit_toNat_bounds h
    omega
  · omega

theorem digitChar_toDigit {c : Char} (h : c.isDigit = true) :
    digitChar (toDigit c) = c := by
  have h48 := (isDigit_toNat_bounds h).1
  unfold digitChar toDigit
  rw [if_pos h, Nat.add_sub_cancel' h48]
  exact Char.ofNat_toNat c

theorem toDigit_digitChar {d : Nat} (h : d ≤ 9) : toDigit (digitChar d) = d := by
  interval_cases d <;> rfl

theorem isDigit_digitChar {d : Nat} (h : d ≤ 9) : (digitChar d).isDigit = true := by
  interval_cases d <;> rfl

theorem digitChar_ne_neg {d : Nat} (h : d ≤ 9) : digitChar d ≠ '-' := by
  interval_cases d <;> decide

theorem toDigit_of_isDigit {c : Char} (h : c.isDigit = true) :
    toDigit c = c.toNat - 48 := by
  unfold toDigit
  rw [if_pos h]

theorem toDigit_eq_zero_iff {c : Char} (h : c.isDigit = true) :
    toDigit c = 0 ↔ c = '0' := by
  constructor
  · intro h0
    have := digitChar_toDigit h
    rw [h0] at this
    exact this.symm
  · intro h0
    subst h0
    rfl

/-! ### Value and shape of the addition loop -/

theorem allDigits_nil : AllDigits [] := by
  intro c hc
  cases hc

theorem allDigits_cons {c : Char} {l : List Char} :
    AllDigits (c :: l) ↔ c.isDigit = true ∧ AllDigits l := by
  simp [AllDigits]

/-- Master lemma for `addLoop`: value, digit-ness and length of the output.
The length is `max` of the input lengths, or one more when the output gains a
top digit, in which case its value reaches `10 ^ max`. -/
theorem addLoop_spec (xs : List Char) : ∀ (ys : List Char) (c : Nat), c ≤ 1 →
    valRev (addLoop xs ys c) = valRev xs + valRev ys + c
    ∧ AllDigits (addLoop xs ys c)
    ∧ ((addLoop xs ys c).length = max xs.length ys.length
       ∨ ((addLoop xs ys c).length = max xs.length ys.length + 1
          ∧ 10 ^ max xs.length ys.length ≤ valRev (addLoop xs ys c))) := by
  induction xs with
  | nil =>
    intro ys
    induction ys with
    | nil =>
      intro c hc
      interval_cases c
      · exact ⟨by simp [addLoop, valRev], by simp [addLoop, allDigits_nil],
          Or.inl (by simp [addLoop])⟩
      · refine ⟨?_, ?_, Or.inr ⟨by simp [addLoop], ?_⟩⟩
        · simp [addLoop, valRev, toDigit_digitChar (by omega : (1:Nat) ≤ 9)]
        · simp [addLoop, allDigits_cons, allDigits_nil,
            isDigit_digitChar (by omega : (1:Nat) ≤ 9)]
        · simp [addLoop, valRev, toDigit_digitChar (by omega : (1:Nat) ≤ 9)]
    | cons y ys ih =>
      intro c hc
      have hy := toDigit_le_nine y
      have hs : (0 + toDigit y + c) % 10 ≤ 9 := by omega
      obtain ⟨ihv, ihd, ihl⟩ := ih ((0 + toDigit y + c) / 10) (by omega)
      have hmd := Nat.mod_add_div (0 + toDigit y + c) 10
      have hval := toDigit_digitChar hs
      have hpow : (10:Nat) ^ (ys.length + 1) = 10 ^ ys.length * 10 := pow_succ 10 ys.length
      refine ⟨?_, ?_, ?_⟩
      · simp only [addLoop, valRev, hval, ihv]
        omega
      · simp only [addLoop, allDigits_cons]
        exact ⟨isDigit_digitChar hs, ihd⟩
      · simp only [addLoop, List.length_cons, List.length_nil, valRev, hval]
        simp only [List.length_nil, Nat.zero_max] at ihl ⊢
        rcases ihl with h | ⟨h1, h2⟩
        · left
          omega
        · right
          exact ⟨by omega, by omega⟩
  | cons x xs ih =>
    intro ys c hc
    have hx := toDigit_le_nine x
    cases ys with
    | nil =>
      have hs : (toDigit x + 0 + c) % 10 ≤ 9 := by omega
      obtain ⟨ihv, ihd, ihl⟩ := ih [] ((toDigit x + 0 + c) / 10) (by omega)
      have hmd := Nat.mod_add_div (toDigit x + 0 + c) 10
      have hval := toDigit_digitChar hs
      have hpow : (10:Nat) ^ (xs.length + 1) = 10 ^ xs.length * 10 := pow_succ 10 xs.length
      simp only [List.length_nil, Nat.max_zero, valRev] at ihv ihl ⊢
      refine ⟨?_, ?_, ?_⟩
      · simp only [addLoop, valRev, hval, ihv]
        omega
      · simp only [addLoop, allDigits_cons]
        exact ⟨isDigit_digitChar hs, ihd⟩
      · simp only [addLoop, List.length_cons, valRev, hval]
        rcases ihl with h | ⟨h1, h2⟩
        · left
          omega
        · right
          exact ⟨by omega, by omega⟩
    | cons y ys =>
      have hy := toDigit_le_nine y
      have hs : (toDigit x + toDigit y + c) % 10 ≤ 9 := by omega
      obtain ⟨ihv, ihd, ihl⟩ := ih ys ((toDigit x + toDigit y + c) / 10) (by omega)
      have hmd := Nat.mod_add_div (toDigit x + toDigit y + c) 10
      have hval := toDigit_digitChar hs
      have hpow : (10:Nat) ^ (max xs.length ys.length + 1)
          = 10 ^ (max xs.length ys.length) * 10 := pow_succ 10 _
      refine ⟨?_, ?_, ?_⟩
      · simp only [addLoop, valRev, hval, ihv]
        omega
      · simp only [addLoop, allDigits_cons]
        exact ⟨isDigit_digitChar hs, ihd⟩
      · simp only [addLoop, List.length_cons, valRev, hval, Nat.succ_max_succ]
        rcases ihl with h | ⟨h1, h2⟩
        · left
          omega
        · right
          exact ⟨by omega, by omega⟩

/-! ### Canonical decimal strings -/

/-- A canonical non-negative decimal string: digits only, non-empty, and no
leading zero except for the single digit `"0"` itself. -/
def CanonNat (l : List Char) : Prop :=
  AllDigits l ∧ l ≠ [] ∧ (l = ['0'] ∨ l.head? ≠ some '0')

instance (l : List Char) : Decidable (CanonNat l) := by
  unfold CanonNat; infer_instance

theorem valRev_lt (l : List Char) : valRev l < 10 ^ l.length := by
  induction l with
  | nil => simp [valRev]
  | cons c cs ih =>
    have := toDigit_le_nine c
    simp only [valRev, List.length_cons, pow_succ]
    omega

theorem valNat_lt (l : List Char) : valNat l < 10 ^ l.length := by
  have := valRev_lt l.reverse
  simpa [valNat] using this

theorem valRev_append_singleton (xs : List Char) (c : Char) :
    valRev (xs ++ [c]) = valRev xs + toDigit c * 10 ^ xs.length := by
  induction xs with
  | nil => simp [valRev]
  | cons x xs ih =>
    have h1 : valRev (x :: (xs ++ [c])) = toDigit x + 10 * valRev (xs ++ [c]) := rfl
    rw [List.cons_append, h1, ih]
    simp only [valRev, List.length_cons, pow_succ]
    ring

theorem valNat_cons (c : Char) (l : List Char) :
    valNat (c :: l) = toDigit c * 10 ^ l.length + valNat l := by
  simp [valNat, List.reverse_cons, valRev_append_singleton]
  ring

theorem allDigits_reverse {l : List Char} (h : AllDigits l) : AllDigits l.reverse := by
  intro c hc
  exact h c (List.mem_reverse.mp hc)

/-- Equal-length digit lists with equal value are equal. -/
theorem valRev_inj : ∀ (xs ys : List Char), AllDigits xs → AllDigits ys →
    xs.length = ys.length → valRev xs = valRev ys → xs = ys := by
  intro xs
  induction xs with
  | nil =>
    intro ys _ _ hlen _
    cases ys with
    | nil => rfl
    | cons y ys => simp at hlen
  | cons x xs ih =>
    intro ys hdx hdy hlen hval
    cases ys with
    | nil => simp at hlen
    | cons y ys =>
      have hx9 := toDigit_le_nine x
      have hy9 := toDigit_le_nine y
      simp only [valRev] at hval
      have hd : toDigit x = toDigit y := by omega
      have hrest : valRev xs = valRev ys := by omega
      have hxd : x.isDigit = true := (allDigits_cons.mp hdx).1
      have hyd : y.isDigit = true := (allDigits_cons.mp hdy).1
      have hxy : x = y := by
        have := digitChar_toDigit hxd
        rw [hd, digitChar_toDigit hyd] at this
        exact this.symm
      have := ih ys (allDigits_cons.mp hdx).2 (allDigits_cons.mp hdy).2
        (by simpa using hlen) hrest
      rw [hxy, this]

theorem valNat_inj {a b : List Char} (ha : AllDigits a) (hb : AllDigits b)
    (hlen : a.length = b.length) (hval : valNat a = valNat b) : a = b := by
  have := valRev_inj a.reverse b.reverse (allDigits_reverse ha) (allDigits_reverse hb)
    (by simpa using hlen) hval
  have h2 := congrArg List.reverse this
  simpa using h2

/-- Value-based characterization of canonicality (digits assumed). -/
theorem canonNat_iff {l : List Char} (hd : AllDigits l) :
    CanonNat l ↔ (l = ['0'] ∨ (l ≠ [] ∧ 10 ^ (l.length - 1) ≤ valNat l)) := by
  constructor
  · rintro ⟨-, hne, hz | hh⟩
    · exact Or.inl hz
    · cases l with
      | nil => exact absurd rfl hne
      | cons c t =>
        right
        refine ⟨hne, ?_⟩
        have hcd : c.isDigit = true := (allDigits_cons.mp hd).1
        have hc0 : toDigit c ≠ 0 := by
          intro h0
          exact hh (by simp [(toDigit_eq_zero_iff hcd).mp h0])
        rw [valNat_cons]
        have : 1 ≤ toDigit c := Nat.one_le_iff_ne_zero.mpr hc0
        simp only [List.length_cons, Nat.add_sub_cancel]
        calc 10 ^ t.length = 1 * 10 ^ t.length := (one_mul _).symm
          _ ≤ toDigit c * 10 ^ t.length := Nat.mul_le_mul_right _ this
          _ ≤ toDigit c * 10 ^ t.length + valNat t := Nat.le_add_right _ _
  · rintro (hz | ⟨hne, hv⟩)
    · exact ⟨hd, by simp [hz], Or.inl hz⟩
    · refine ⟨hd, hne, ?_⟩
      by_cases hz : l = ['0']
      · exact Or.inl hz
      · right
        intro hh
        cases l with
        | nil => exact hne rfl
        | cons c t =>
          simp only [List.head?_cons, Option.some_inj] at hh
          subst hh
          rw [valNat_cons, show toDigit '0' = 0 from rfl, zero_mul, zero_add] at hv
          have hvt := valNat_lt t
          simp only [List.length_cons, Nat.add_sub_cancel] at hv
          omega

/-- The canonical value bound: a canonical string other than `"0"` is at
least `10 ^ (length - 1)`. -/
theorem canonNat_lower {l : List Char} (h : CanonNat l) (hne : l = ['0'] → False) :
    10 ^ (l.length - 1) ≤ valNat l := by
  rcases (canonNat_iff h.1).mp h with hz | ⟨_, hv⟩
  · exact absurd hz hne
  · exact hv

theorem canonNat_zero_iff {l : List Char} (h : CanonNat l) :
    valNat l = 0 ↔ l = ['0'] := by
  constructor
  · intro hv
    by_contra hne
    have := canonNat_lower h hne
    have : (10:Nat) ^ (l.length - 1) ≥ 1 := Nat.one_le_pow _ _ (by omega)
    omega
  · intro hz
    subst hz
    rfl

/-- Canonical strings are determined by their value. -/
theorem canonNat_unique {a b : List Char} (ha : CanonNat a) (hb : CanonNat b)
    (hval : valNat a = valNat b) : a = b := by
  by_cases hz : valNat a = 0
  · rw [(canonNat_zero_iff ha).mp hz, (canonNat_zero_iff hb).mp (by omega)]
  · have hza : a = ['0'] → False := fun h => hz (by simp [h]; rfl)
    have hzb : b = ['0'] → False := by
      intro h
      rw [hval] at hz
      exact hz (by simp [h]; rfl)
    have hla := canonNat_lower ha hza
    have hlb := canonNat_lower hb hzb
    have hua := valNat_lt a
    have hub := valNat_lt b
    have hlen : a.length = b.length := by
      by_contra hne
      rcases Nat.lt_or_ge a.length b.length with h | h
      · have h1 : a.length ≤ b.length - 1 := by omega
        have : (10:Nat) ^ a.length ≤ 10 ^ (b.length - 1) :=
          Nat.pow_le_pow_right (by omega) h1
        omega
      · have hne' : b.length < a.length := by omega
        have h1 : b.length ≤ a.length - 1 := by omega
        have : (10:Nat) ^ b.length ≤ 10 ^ (a.length - 1) :=
          Nat.pow_le_pow_right (by omega) h1
        omega
    exact valNat_inj ha.1 hb.1 hlen hval

/-- Any single digit character is canonical. -/
theorem canonNat_singleton {c : Char} (h : c.isDigit = true) : CanonNat [c] := by
  refine ⟨by simp [AllDigits, h], by simp, ?_⟩
  by_cases h0 : c = '0'
  · exact Or.inl (by rw [h0])
  · exact Or.inr (by simpa using h0)

/-! ### Subtraction loop -/

/-- Master lemma for `subLoop`, stated in addition form to avoid truncated
natural subtraction: when the subtrahend (plus incoming borrow) does not
exceed the minuend and is no longer than it, the loop computes the exact
difference, digit by digit, with the same length as the minuend. -/
theorem subLoop_spec (xs : List Char) : ∀ (ys : List Char) (b : Nat), b ≤ 1 →
    ys.length ≤ xs.length →
    valRev ys + b ≤ valRev xs →
    valRev (subLoop xs ys b) + valRev ys + b = valRev xs
    ∧ AllDigits (subLoop xs ys b)
    ∧ (subLoop xs ys b).length = xs.length := by
  induction xs with
  | nil =>
    intro ys b hb hlen hval
    have hys : ys = [] := List.length_eq_zero.mp (Nat.le_zero.mp (by simpa using hlen))
    subst hys
    simp only [valRev] at hval
    have hb0 : b = 0 := by omega
    subst hb0
    exact ⟨by simp [subLoop, valRev], by simp [subLoop, allDigits_nil], by simp [subLoop]⟩
  | cons x xs ih =>
    intro ys b hb hlen hval
    have hx9 := toDigit_le_nine x
    cases ys with
    | nil =>
      simp only [valRev] at hval ⊢
      by_cases hlt : toDigit x < b
      · have hrec : (0:Nat) + 1 ≤ valRev xs := by omega
        obtain ⟨ihv, ihd, ihl⟩ := ih [] 1 (by omega) (by simp) (by simpa [valRev] using hrec)
        simp only [valRev] at ihv
        have hd9 : toDigit x + 10 - b ≤ 9 := by omega
        rw [show subLoop (x :: xs) [] b
            = digitChar (toDigit x + 10 - b) :: subLoop xs [] 1 from by
          simp [subLoop, hlt]]
        refine ⟨?_, ?_, ?_⟩
        · simp only [valRev, toDigit_digitChar hd9]
          omega
        · exact allDigits_cons.mpr ⟨isDigit_digitChar hd9, ihd⟩
        · simp [ihl]
      · have hrec : (0:Nat) + 0 ≤ valRev xs := by omega
        obtain ⟨ihv, ihd, ihl⟩ := ih [] 0 (by omega) (by simp) (by simpa [valRev] using hrec)
        simp only [valRev] at ihv
        have hd9 : toDigit x - b ≤ 9 := by omega
        rw [show subLoop (x :: xs) [] b = digitChar (toDigit x - b) :: subLoop xs [] 0 from by
          simp [subLoop, hlt]]
        refine ⟨?_, ?_, ?_⟩
        · simp only [valRev, toDigit_digitChar hd9]
          omega
        · exact allDigits_cons.mpr ⟨isDigit_digitChar hd9, ihd⟩
        · simp [ihl]
    | cons y ys =>
      have hy9 := toDigit_le_nine y
      simp only [valRev] at hval ⊢
      by_cases hlt : toDigit x < toDigit y + b
      · have hrec : valRev ys + 1 ≤ valRev xs := by omega
        obtain ⟨ihv, ihd, ihl⟩ := ih ys 1 (by omega) (by simpa using hlen) hrec
        have hd9 : toDigit x + 10 - (toDigit y + b) ≤ 9 := by omega
        rw [show subLoop (x :: xs) (y :: ys) b
            = digitChar (toDigit x + 10 - (toDigit y + b)) :: subLoop xs ys 1 from by
          simp [subLoop, hlt]]
        refine ⟨?_, ?_, ?_⟩
        · simp only [valRev, toDigit_digitChar hd9]
          omega
        · exact allDigits_cons.mpr ⟨isDigit_digitChar hd9, ihd⟩
        · simp [ihl]
      · have hrec : valRev ys + 0 ≤ valRev xs := by omega
        obtain ⟨ihv, ihd, ihl⟩ := ih ys 0 (by omega) (by simpa using hlen) hrec
        have hd9 : toDigit x - (toDigit y + b) ≤ 9 := by omega
        rw [show subLoop (x :: xs) (y :: ys) b
            = digitChar (toDigit x - (toDigit y + b)) :: subLoop xs ys 0 from by
          simp [subLoop, hlt]]
        refine ⟨?_, ?_, ?_⟩
        · simp only [valRev, toDigit_digitChar hd9]
          omega
        · exact allDigits_cons.mpr ⟨isDigit_digitChar hd9, ihd⟩
        · simp [ihl]

/-! ### Leading-zero trimming -/

theorem trimStart_cons_of_ne {c : Char} (h : c = '0' → False) (t : List Char) :
    trimStart (c :: t) = c :: t := by
  unfold trimStart
  split
  · rename_i heq
    injection heq with h1 h2
    exact absurd h1 h
  · rfl

theorem trimStart_val (l : List Char) : valNat (trimStart l) = valNat l := by
  induction l with
  | nil => rfl
  | cons c t ih =>
    by_cases hc : c = '0'
    · subst hc
      cases t with
      | nil => rfl
      | cons d ds =>
        rw [show trimStart ('0' :: d :: ds) = trimStart (d :: ds) from rfl, ih,
          valNat_cons '0' (d :: ds), show toDigit '0' = 0 from rfl]
        ring
    · rw [trimStart_cons_of_ne hc]

theorem trimStart_canon {l : List Char} (hd : AllDigits l) (hne : l ≠ []) :
    CanonNat (trimStart l) := by
  induction l with
  | nil => exact absurd rfl hne
  | cons c t ih =>
    have hcd : c.isDigit = true := (allDigits_cons.mp hd).1
    by_cases hc : c = '0'
    · subst hc
      cases t with
      | nil => exact canonNat_singleton (by decide)
      | cons d ds =>
        rw [show trimStart ('0' :: d :: ds) = trimStart (d :: ds) from rfl]
        exact ih (allDigits_cons.mp hd).2 (by simp)
    · rw [trimStart_cons_of_ne hc]
      exact ⟨hd, by simp, Or.inr (by simpa using hc)⟩

/-! ### Correctness of the positive-magnitude primitives -/

theorem canonNat_length_le {a b : List Char} (ha : CanonNat a) (hb : CanonNat b)
    (hv : valNat a ≤ valNat b) : a.length ≤ b.length := by
  by_cases hz : a = ['0']
  · subst hz
    have : b ≠ [] := hb.2.1
    cases b with
    | nil => exact absurd rfl this
    | cons x t => simp
  · have hla := canonNat_lower ha hz
    have hub := valNat_lt b
    have : (10:Nat) ^ (a.length - 1) < 10 ^ b.length := by omega
    have h2 := (Nat.pow_lt_pow_iff_right (by omega : 1 < 10)).mp this
    have hane : a ≠ [] := ha.2.1
    have : 1 ≤ a.length := by
      cases a with
      | nil => exact absurd rfl hane
      | cons x t => simp
    omega

theorem add_positive_spec {v1 v2 : List Char} (h1 : CanonNat v1) (h2 : CanonNat v2) :
    valNat (add_positive v1 v2) = valNat v1 + valNat v2
    ∧ CanonNat (add_positive v1 v2) := by
  obtain ⟨hv, hd, hl⟩ := addLoop_spec v1.reverse v2.reverse 0 (by omega)
  have hval : valNat (add_positive v1 v2) = valNat v1 + valNat v2 := by
    unfold add_positive valNat
    rw [List.reverse_reverse]
    simpa [valNat] using hv
  refine ⟨hval, ?_⟩
  have hdig : AllDigits (add_positive v1 v2) := allDigits_reverse hd
  rw [canonNat_iff hdig]
  have hlen : (add_positive v1 v2).length = (addLoop v1.reverse v2.reverse 0).length := by
    simp [add_positive]
  have hne1 : v1 ≠ [] := h1.2.1
  have hmax1 : 1 ≤ max v1.reverse.length v2.reverse.length := by
    cases v1 with
    | nil => exact absurd rfl hne1
    | cons x t =>
      simp only [List.length_reverse, List.length_cons]
      omega
  rcases hl with h | ⟨h, hlow⟩
  · -- no final carry: the length is the max of the input lengths
    by_cases hone : (add_positive v1 v2).length = 1
    · -- a single all-digit character is canonical
      rcases List.length_eq_one.mp hone with ⟨c, hc⟩
      have hdig' : AllDigits [c] := by rw [hc] at hdig; exact hdig
      rw [hc]
      exact (canonNat_iff hdig').mp (canonNat_singleton ((allDigits_cons.mp hdig').1))
    · right
      refine ⟨List.length_pos.mp (by rw [hlen, h]; omega), ?_⟩
      rw [hval, hlen, h]
      -- the longer operand already reaches 10 ^ (max - 1)
      rcases Nat.le_total v1.length v2.length with hcmp | hcmp
      · have hm : max v1.reverse.length v2.reverse.length = v2.length := by
          simp only [List.length_reverse]
          omega
        have h2z : v2 = ['0'] → False := by
          intro hz
          apply hone
          rw [hlen, h, hm, hz]
          rfl
        have hlow2 := canonNat_lower h2 h2z
        rw [hm]
        omega
      · have hm : max v1.reverse.length v2.reverse.length = v1.length := by
          simp only [List.length_reverse]
          omega
        have h1z : v1 = ['0'] → False := by
          intro hz
          apply hone
          rw [hlen, h, hm, hz]
          rfl
        have hlow2 := canonNat_lower h1 h1z
        rw [hm]
        omega
  · right
    refine ⟨List.length_pos.mp (by rw [hlen, h]; omega), ?_⟩
    rw [hval, hlen, h]
    have hvv : valNat v1 + valNat v2 = valRev (addLoop v1.reverse v2.reverse 0) := by
      simp only [valNat] at hv ⊢
      omega
    rw [hvv]
    calc 10 ^ (max v1.reverse.length v2.reverse.length + 1 - 1)
        = 10 ^ (max v1.reverse.length v2.reverse.length) := by congr 1
      _ ≤ valRev (addLoop v1.reverse v2.reverse 0) := hlow

theorem sub_positive_spec {v1 v2 : List Char} (h1 : CanonNat v1) (h2 : CanonNat v2)
    (hle : valNat v2 ≤ valNat v1) :
    valNat (sub_positive v1 v2) = valNat v1 - valNat v2
    ∧ CanonNat (sub_positive v1 v2) := by
  have hlen : v2.length ≤ v1.length := canonNat_length_le h2 h1 hle
  obtain ⟨hv, hd, hl⟩ := subLoop_spec v1.reverse v2.reverse 0 (by omega)
    (by simpa using hlen) (by simpa [valNat] using hle)
  have hvala : valNat ((subLoop v1.reverse v2.reverse 0).reverse)
      = valNat v1 - valNat v2 := by
    simp only [valNat, List.reverse_reverse]
    omega
  have hne : (subLoop v1.reverse v2.reverse 0).reverse ≠ [] := by
    have hne1 : v1 ≠ [] := h1.2.1
    intro hc
    have : (subLoop v1.reverse v2.reverse 0).length = 0 := by
      simpa using congrArg List.length hc
    rw [hl] at this
    simp at this
    exact hne1 this
  refine ⟨?_, ?_⟩
  · unfold sub_positive
    rw [trimStart_val, hvala]
  · exact trimStart_canon (allDigits_reverse hd) hne

/-! ### String comparison -/

theorem char_lt_iff_toNat (a b : Char) : a < b ↔ a.toNat < b.toNat := by
  rw [Char.lt_def]
  simp [UInt32.lt_def, Char.toNat, UInt32.toNat, BitVec.lt_def]

theorem digit_lt_iff {a b : Char} (ha : a.isDigit = true) (hb : b.isDigit = true) :
    a < b ↔ toDigit a < toDigit b := by
  rw [char_lt_iff_toNat, toDigit_of_isDigit ha, toDigit_of_isDigit hb]
  have h1 := (isDigit_toNat_bounds ha).1
  have h2 := (isDigit_toNat_bounds hb).1
  omega

/-- Lexicographic comparison of equal-length digit strings is numeric
comparison. -/
theorem strLt_spec : ∀ (xs ys : List Char), AllDigits xs → AllDigits ys →
    xs.length = ys.length → (strLt xs ys = true ↔ valNat xs < valNat ys) := by
  intro xs
  induction xs with
  | nil =>
    intro ys _ _ hlen
    have : ys = [] := List.length_eq_zero.mp (by simpa using hlen.symm)
    subst this
    simp [strLt]
  | cons a as_ ih =>
    intro ys hda hdb hlen
    cases ys with
    | nil => simp at hlen
    | cons b bs =>
      have had : a.isDigit = true := (allDigits_cons.mp hda).1
      have hbd : b.isDigit = true := (allDigits_cons.mp hdb).1
      have ha9 := toDigit_le_nine a
      have hb9 := toDigit_le_nine b
      have hlen' : as_.length = bs.length := by simpa using hlen
      have hua := valNat_lt as_
      have hub := valNat_lt bs
      rw [valNat_cons, valNat_cons, hlen']
      by_cases hab : a < b
      · rw [show strLt (a :: as_) (b :: bs) = true from by simp [strLt, hab]]
        have hd := (digit_lt_iff had hbd).mp hab
        simp only [true_iff]
        have : (10:Nat) ^ bs.length > 0 := Nat.pos_pow_of_pos _ (by omega)
        rw [hlen'] at hua
        nlinarith
      · by_cases hba : b < a
        · rw [show strLt (a :: as_) (b :: bs) = false from by simp [strLt, hab, hba]]
          have hd := (digit_lt_iff hbd had).mp hba
          simp only [Bool.false_eq_true, false_iff, not_lt]
          have : (10:Nat) ^ bs.length > 0 := Nat.pos_pow_of_pos _ (by omega)
          rw [hlen'] at hua
          nlinarith
        · have heq : a = b := le_antisymm (not_lt.mp hba) (not_lt.mp hab)
          subst heq
          rw [show strLt (a :: as_) (a :: bs) = strLt as_ bs from by simp [strLt, hab]]
          rw [ih bs (allDigits_cons.mp hda).2 (allDigits_cons.mp hdb).2 hlen']
          constructor
          · intro h
            omega
          · intro h
            omega

/-- Correctness of `is_smaller` on canonical strings: decides strict numeric order. -/
theorem is_smaller_spec {a b : List Char} (ha : CanonNat a) (hb : CanonNat b) :
    (is_smaller a b = true ↔ valNat a < valNat b) := by
  unfold is_smaller
  by_cases hl : a.length < b.length
  · rw [if_pos hl]
    simp only [true_iff]
    have hbz : b = ['0'] → False := by
      intro hz
      subst hz
      have : a ≠ [] := ha.2.1
      cases a with
      | nil => exact absurd rfl this
      | cons x t => simp at hl
    have hlow := canonNat_lower hb hbz
    have hua := valNat_lt a
    have : (10:Nat) ^ a.length ≤ 10 ^ (b.length - 1) :=
      Nat.pow_le_pow_right (by omega) (by omega)
    omega
  · rw [if_neg hl]
    by_cases hg : b.length < a.length
    · rw [if_pos hg]
      simp only [Bool.false_eq_true, false_iff, not_lt]
      have haz : a = ['0'] → False := by
        intro hz
        subst hz
        have : b ≠ [] := hb.2.1
        cases b with
        | nil => exact absurd rfl this
        | cons x t => simp at hg
      have hlow := canonNat_lower ha haz
      have hub := valNat_lt b
      have : (10:Nat) ^ b.length ≤ 10 ^ (a.length - 1) :=
        Nat.pow_le_pow_right (by omega) (by omega)
      omega
    · rw [if_neg hg]
      exact strLt_spec a b ha.1 hb.1 (by omega)

/-! ### Multiplication -/

/-- Value of a buffer of digit sums, base 10, least significant first. -/
def valN : List Nat → Nat
  | [] => 0
  | n :: ns => n + 10 * valN ns

theorem length_bump (l : List Nat) (k v : Nat) : (bump l k v).length = l.length := by
  simp [bump]

theorem valN_bump : ∀ (l : List Nat) (k v : Nat), k < l.length →
    valN (bump l k v) = valN l + v * 10 ^ k := by
  intro l
  induction l with
  | nil => intro k v h; simp at h
  | cons n ns ih =>
    intro k v h
    cases k with
    | zero =>
      simp only [bump, List.set, List.getD_cons_zero, valN]
      omega
    | succ k =>
      have hk : k < ns.length := by simpa using h
      have := ih k v hk
      simp only [bump, List.set, List.getD_cons_succ, valN] at this ⊢
      have hp : v * 10 ^ (k + 1) = 10 * (v * 10 ^ k) := by ring
      omega

/-- Effect of the inner `for j` loop on the buffer: it adds
`d * (sum of e j * 10 ^ (i + j))` for `j` over the processed list. -/
theorem inner_foldl_spec (ys : List Char) (i d : Nat) :
    ∀ (js : List Nat) (acc : List Nat), (∀ j ∈ js, i + j < acc.length) →
    valN (js.foldl (fun a j => bump a (i + j) (d * toDigit (ys.getD j '0'))) acc)
      = valN acc + d * ((js.map (fun j => toDigit (ys.getD j '0') * 10 ^ (i + j))).sum)
    ∧ (js.foldl (fun a j => bump a (i + j) (d * toDigit (ys.getD j '0'))) acc).length
      = acc.length := by
  intro js
  induction js with
  | nil => intro acc h; simp
  | cons j js ih =>
    intro acc h
    have hj : i + j < acc.length := h j (by simp)
    have hlen : (bump acc (i + j) (d * toDigit (ys.getD j '0'))).length = acc.length :=
      length_bump _ _ _
    obtain ⟨ihv, ihl⟩ := ih (bump acc (i + j) (d * toDigit (ys.getD j '0')))
      (by intro x hx; rw [hlen]; exact h x (by simp [hx]))
    simp only [List.foldl_cons, List.map_cons, List.sum_cons]
    rw [ihv, valN_bump acc _ _ hj, ihl]
    refine ⟨by ring, hlen⟩

/-- The position-indexed sum below equals the value of the digit string. -/
theorem range_sum_valRev : ∀ (ys : List Char) (i : Nat),
    ((List.range ys.length).map (fun j => toDigit (ys.getD j '0') * 10 ^ (i + j))).sum
      = 10 ^ i * valRev ys := by
  intro ys
  induction ys with
  | nil => intro i; simp [valRev]
  | cons y t ih =>
    intro i
    rw [show (y :: t).length = t.length + 1 from rfl, List.range_succ_eq_map]
    simp only [List.map_cons, List.map_map, List.sum_cons]
    have hmap : (List.map ((fun j => toDigit ((y :: t).getD j '0') * 10 ^ (i + j)) ∘ Nat.succ)
        (List.range t.length)).sum
        = (List.map (fun j => toDigit (t.getD j '0') * 10 ^ ((i + 1) + j))
            (List.range t.length)).sum := by
      congr 1
      apply List.map_congr_left
      intro j hj
      simp only [Function.comp_apply, List.getD_cons_succ]
      have he : i + j.succ = i + 1 + j := by omega
      rw [he]
    rw [hmap, ih (i + 1)]
    simp only [List.getD_cons_zero, valRev]
    ring

/-- The double loop of `mulDigits` computes the convolution value
`valRev xs * valRev ys` into a buffer of length `|xs| + |ys|`. -/
theorem mulDigits_spec (xs ys : List Char) :
    valN (mulDigits xs ys) = valRev xs * valRev ys
    ∧ (mulDigits xs ys).length = xs.length + ys.length := by
  unfold mulDigits
  suffices h : ∀ (is : List Nat) (acc : List Nat),
      (∀ i ∈ is, i + ys.length ≤ acc.length) →
      valN (is.foldl (fun a i =>
        (List.range ys.length).foldl
          (fun a2 j => bump a2 (i + j) (toDigit (xs.getD i '0') * toDigit (ys.getD j '0'))) a) acc)
        = valN acc + ((is.map (fun i => toDigit (xs.getD i '0') * 10 ^ i)).sum) * valRev ys
      ∧ (is.foldl (fun a i =>
        (List.range ys.length).foldl
          (fun a2 j => bump a2 (i + j) (toDigit (xs.getD i '0') * toDigit (ys.getD j '0'))) a) acc).length
        = acc.length by
    have hinit : valN (List.replicate (xs.length + ys.length) 0) = 0 := by
      induction (xs.length + ys.length) with
      | zero => rfl
      | succ n ihn => simpa [List.replicate, valN] using ihn
    obtain ⟨hv, hl⟩ := h (List.range xs.length) (List.replicate (xs.length + ys.length) 0)
      (by
        intro i hi
        simp only [List.length_replicate]
        have := List.mem_range.mp hi
        omega)
    constructor
    · rw [hv, hinit]
      have := range_sum_valRev xs 0
      simp only [pow_zero, one_mul] at this
      have harg : (List.map (fun j => toDigit (xs.getD j '0') * 10 ^ (0 + j))
          (List.range xs.length)).sum
          = (List.map (fun i => toDigit (xs.getD i '0') * 10 ^ i) (List.range xs.length)).sum := by
        congr 1
        apply List.map_congr_left
        intro j _
        congr 2
        omega
      rw [← harg, this]
      ring
    · rw [hl]
      simp
  intro is
  induction is with
  | nil => intro acc h; simp
  | cons i is ih =>
    intro acc h
    have hi : i + ys.length ≤ acc.length := h i (by simp)
    obtain ⟨hv1, hl1⟩ := inner_foldl_spec ys i (toDigit (xs.getD i '0')) (List.range ys.length) acc
      (by
        intro j hj
        have := List.mem_range.mp hj
        omega)
    obtain ⟨ihv, ihl⟩ := ih _ (by
      intro x hx
      rw [hl1]
      exact h x (by simp [hx]))
    simp only [List.foldl_cons, List.map_cons, List.sum_cons]
    rw [ihv, hv1, ihl, hl1, range_sum_valRev ys i]
    refine ⟨by ring, rfl⟩

/-- Carry propagation computes the value of the buffer (plus carry), provided
the total fits in one more digit position than the buffer length. -/
theorem carryProp_spec : ∀ (ns : List Nat) (c : Nat),
    valN ns + c < 10 ^ (ns.length + 1) →
    valRev (carryProp ns c) = valN ns + c
    ∧ AllDigits (carryProp ns c)
    ∧ carryProp ns c ≠ [] ∨ (valN ns + c = 0 ∧ carryProp ns c = []) := by
  intro ns
  induction ns with
  | nil =>
    intro c hc
    simp only [valN, List.length_nil, pow_one, Nat.zero_add] at hc
    by_cases h0 : 0 < c
    · left
      rw [show carryProp [] c = [digitChar c] from by simp [carryProp, h0]]
      refine ⟨by simp [valRev, valN, toDigit_digitChar (by omega : c ≤ 9)], ?_, by simp⟩
      exact allDigits_cons.mpr ⟨isDigit_digitChar (by omega), allDigits_nil⟩
    · right
      rw [show carryProp [] c = [] from by simp [carryProp, h0]]
      refine ⟨?_, rfl⟩
      simp only [valN]
      omega
  | cons n ns ih =>
    intro c hc
    have hms := Nat.mod_add_div (n + c) 10
    have hrec : valN ns + (n + c) / 10 < 10 ^ (ns.length + 1) := by
      have h1 : 10 * (valN ns + (n + c) / 10) ≤ valN (n :: ns) + c := by
        simp only [valN]
        omega
      have h2 : valN (n :: ns) + c < 10 ^ (ns.length + 1 + 1) := by
        simpa using hc
      have h3 : (10:Nat) ^ (ns.length + 1 + 1) = 10 * 10 ^ (ns.length + 1) := by
        ring
      omega
    obtain ihall := ih ((n + c) / 10) hrec
    have h9 : (n + c) % 10 ≤ 9 := by omega
    have hval : valRev (carryProp ns ((n + c) / 10)) = valN ns + (n + c) / 10 := by
      rcases ihall with ⟨hv, _, _⟩ | ⟨hz, he⟩
      · exact hv
      · rw [he]
        simp [valRev]
        omega
    have hdig : AllDigits (carryProp ns ((n + c) / 10)) := by
      rcases ihall with ⟨_, hd, _⟩ | ⟨_, he⟩
      · exact hd
      · rw [he]; exact allDigits_nil
    left
    rw [show carryProp (n :: ns) c
        = digitChar ((n + c) % 10) :: carryProp ns ((n + c) / 10) from rfl]
    refine ⟨?_, allDigits_cons.mpr ⟨isDigit_digitChar h9, hdig⟩, by simp⟩
    simp only [valRev, toDigit_digitChar h9, hval, valN]
    omega

/-- Correctness of `mul_positive` on canonical strings: computes the product. -/
theorem mul_positive_spec {v1 v2 : List Char} (h1 : CanonNat v1) (h2 : CanonNat v2) :
    valNat (mul_positive v1 v2) = valNat v1 * valNat v2
    ∧ CanonNat (mul_positive v1 v2) := by
  unfold mul_positive
  by_cases hz : v1 = ['0'] ∨ v2 = ['0']
  · rw [if_pos hz]
    rcases hz with hz | hz
    · subst hz
      refine ⟨?_, canonNat_singleton (by decide)⟩
      rw [show valNat ['0'] = 0 from rfl]
      ring
    · subst hz
      refine ⟨?_, canonNat_singleton (by decide)⟩
      rw [show valNat ['0'] = 0 from rfl]
      ring
  · rw [if_neg hz]
    obtain ⟨hcv, hcl⟩ := mulDigits_spec v1.reverse v2.reverse
    have hvv : valRev v1.reverse * valRev v2.reverse = valNat v1 * valNat v2 := rfl
    have hne1 : v1 ≠ [] := h1.2.1
    have hne2 : v2 ≠ [] := h2.2.1
    have hl1 : 1 ≤ v1.length := List.length_pos.mpr hne1
    have hl2 : 1 ≤ v2.length := List.length_pos.mpr hne2
    have hbound : valN (mulDigits v1.reverse v2.reverse) + 0
        < 10 ^ ((mulDigits v1.reverse v2.reverse).length + 1) := by
      rw [hcv, hcl]
      have hu1 := valNat_lt v1
      have hu2 := valNat_lt v2
      have : valNat v1 * valNat v2 < 10 ^ v1.length * 10 ^ v2.length := by
        have hp1 : 0 < (10:Nat) ^ v2.length := Nat.pos_pow_of_pos _ (by omega)
        calc valNat v1 * valNat v2 ≤ valNat v1 * 10 ^ v2.length := by
              exact Nat.mul_le_mul_left _ (by omega)
          _ < 10 ^ v1.length * 10 ^ v2.length := mul_lt_mul_of_pos_right hu1 hp1
      calc valNat v1 * valNat v2 + 0 < 10 ^ v1.length * 10 ^ v2.length := by omega
        _ = 10 ^ (v1.reverse.length + v2.reverse.length) := by
            simp [pow_add]
        _ ≤ 10 ^ (v1.reverse.length + v2.reverse.length + 1) := by
            apply Nat.pow_le_pow_right
            · omega
            · omega
    obtain hcp := carryProp_spec (mulDigits v1.reverse v2.reverse) 0 hbound
    have hcpv : valRev (carryProp (mulDigits v1.reverse v2.reverse) 0)
        = valNat v1 * valNat v2 := by
      rcases hcp with ⟨hv, _, _⟩ | ⟨hz2, he⟩
      · rw [hv, hcv]
        simp [valNat]
      · rw [he]
        rw [hcv] at hz2
        simp only [valRev]
        have hz1 : valNat v1 ≠ 0 := fun h => (hz (Or.inl ((canonNat_zero_iff h1).mp h))).elim
        have hz2' : valNat v2 ≠ 0 := fun h => (hz (Or.inr ((canonNat_zero_iff h2).mp h))).elim
        have : valRev v1.reverse * valRev v2.reverse ≠ 0 := by
          simp only [valNat] at hz1 hz2'
          exact Nat.mul_ne_zero hz1 hz2'
        omega
    have hcpd : AllDigits (carryProp (mulDigits v1.reverse v2.reverse) 0) := by
      rcases hcp with ⟨_, hd, _⟩ | ⟨_, he⟩
      · exact hd
      · rw [he]; exact allDigits_nil
    have hcpne : carryProp (mulDigits v1.reverse v2.reverse) 0 ≠ [] := by
      have : (mulDigits v1.reverse v2.reverse).length = v1.length + v2.length := by
        simpa using hcl
      rcases hne : mulDigits v1.reverse v2.reverse with _ | ⟨m, ms⟩
      · rw [hne] at this
        simp at this
        omega
      · rw [show carryProp (m :: ms) 0 = digitChar ((m + 0) % 10) :: carryProp ms ((m + 0) / 10)
          from rfl]
        simp
    constructor
    · rw [trimStart_val]
      simp only [valNat, List.reverse_reverse]
      exact hcpv
    · exact trimStart_canon (allDigits_reverse hcpd)
        (by simpa using hcpne)

/-! ### Exponentiation -/

theorem powLoop_spec : ∀ (e : Nat) (res cb : List Char), CanonNat res → CanonNat cb →
    valNat (powLoop e res cb) = valNat res * valNat cb ^ e
    ∧ CanonNat (powLoop e res cb) := by
  intro e
  induction e using Nat.strong_induction_on with
  | _ e ih =>
    match e with
    | 0 =>
      intro res cb hr hc
      rw [show powLoop 0 res cb = res from by simp [powLoop]]
      exact ⟨by rw [pow_zero, mul_one], hr⟩
    | n + 1 =>
      intro res cb hr hc
      obtain ⟨hm1v, hm1c⟩ := mul_positive_spec hr hc
      obtain ⟨hm2v, hm2c⟩ := mul_positive_spec hc hc
      have hstep : powLoop (n + 1) res cb
          = powLoop ((n + 1) / 2) (if (n + 1) % 2 = 1 then mul_positive res cb else res)
              (mul_positive cb cb) := by
        simp [powLoop]
      have hr' : CanonNat (if (n + 1) % 2 = 1 then mul_positive res cb else res) := by
        split
        · exact hm1c
        · exact hr
      have hv' : valNat (if (n + 1) % 2 = 1 then mul_positive res cb else res)
          = valNat res * valNat cb ^ ((n + 1) % 2) := by
        split
        · rename_i hodd
          rw [hm1v, hodd, pow_one]
        · rename_i heven
          have : (n + 1) % 2 = 0 := by omega
          rw [this, pow_zero, mul_one]
      obtain ⟨ihv, ihc⟩ := ih ((n + 1) / 2) (by omega) _ (mul_positive cb cb) hr' hm2c
      rw [hstep, ihv, hv', hm2v]
      refine ⟨?_, ihc⟩
      rw [← pow_two, ← pow_mul, mul_assoc, ← pow_add]
      congr 2
      omega

/-- Correctness of `pow` on a canonical base: computes the power, canonically. -/
theorem pow_spec {base : List Char} (h : CanonNat base) (e : Nat) :
    valNat (pow base e) = valNat base ^ e ∧ CanonNat (pow base e) := by
  unfold pow
  by_cases h0 : e = 0
  · rw [if_pos h0, h0, pow_zero]
    exact ⟨rfl, canonNat_singleton (by decide)⟩
  · rw [if_neg h0]
    by_cases h1 : e = 1
    · rw [if_pos h1, h1, pow_one]
      exact ⟨rfl, h⟩
    · rw [if_neg h1]
      obtain ⟨hv, hc⟩ := powLoop_spec e ['1'] base (canonNat_singleton (by decide)) h
      rw [hv, show valNat ['1'] = 1 from rfl, one_mul]
      exact ⟨rfl, hc⟩

/-! ### Canonical decimal representation of a natural number -/

def natDigitsRev : Nat → List Char
  | 0 => []
  | n + 1 => digitChar ((n + 1) % 10) :: natDigitsRev ((n + 1) / 10)
termination_by n => n
decreasing_by omega

/-- Canonical decimal string of a natural number. -/
def reprN (n : Nat) : List Char :=
  if n = 0 then ['0'] else (natDigitsRev n).reverse

theorem natDigitsRev_spec : ∀ n : Nat,
    valRev (natDigitsRev n) = n
    ∧ AllDigits (natDigitsRev n)
    ∧ (1 ≤ n → 10 ^ ((natDigitsRev n).length - 1) ≤ n
        ∧ n < 10 ^ (natDigitsRev n).length ∧ natDigitsRev n ≠ []) := by
  intro n
  induction n using Nat.strong_induction_on with
  | _ n ih =>
    match n with
    | 0 =>
      refine ⟨by simp [natDigitsRev, valRev], by simp [natDigitsRev, allDigits_nil], ?_⟩
      intro h
      omega
    | m + 1 =>
      have h9 : (m + 1) % 10 ≤ 9 := by omega
      obtain ⟨ihv, ihd, ihb⟩ := ih ((m + 1) / 10) (by omega)
      have hstep : natDigitsRev (m + 1)
          = digitChar ((m + 1) % 10) :: natDigitsRev ((m + 1) / 10) := by
        simp [natDigitsRev]
      rw [hstep]
      refine ⟨?_, allDigits_cons.mpr ⟨isDigit_digitChar h9, ihd⟩, ?_⟩
      · simp only [valRev, toDigit_digitChar h9, ihv]
        omega
      · intro _
        by_cases hq : (m + 1) / 10 = 0
        · rw [hq] at ihv ⊢
          rw [show natDigitsRev 0 = [] from by simp [natDigitsRev]]
          refine ⟨by simp, ?_, by simp⟩
          simp only [List.length_cons, List.length_nil]
          omega
        · obtain ⟨hlow, hup, hne⟩ := ihb (by omega)
          have hL : 1 ≤ (natDigitsRev ((m + 1) / 10)).length := List.length_pos.mpr hne
          refine ⟨?_, ?_, by simp⟩
          · simp only [List.length_cons, Nat.add_sub_cancel]
            have he : (natDigitsRev ((m + 1) / 10)).length
                = ((natDigitsRev ((m + 1) / 10)).length - 1) + 1 := by omega
            rw [he, pow_succ]
            have : 10 ^ ((natDigitsRev ((m + 1) / 10)).length - 1) * 10
                ≤ ((m + 1) / 10) * 10 := by
              exact Nat.mul_le_mul_right _ hlow
            omega
          · simp only [List.length_cons, pow_succ]
            have : (m + 1) / 10 + 1 ≤ 10 ^ (natDigitsRev ((m + 1) / 10)).length := by omega
            have h2 : ((m + 1) / 10 + 1) * 10 ≤ 10 ^ (natDigitsRev ((m + 1) / 10)).length * 10 :=
              Nat.mul_le_mul_right _ this
            omega

theorem reprN_spec (n : Nat) : CanonNat (reprN n) ∧ valNat (reprN n) = n := by
  unfold reprN
  by_cases h0 : n = 0
  · rw [if_pos h0]
    exact ⟨canonNat_singleton (by decide), by rw [h0]; rfl⟩
  · rw [if_neg h0]
    obtain ⟨hv, hd, hb⟩ := natDigitsRev_spec n
    obtain ⟨hlow, hup, hne⟩ := hb (by omega)
    have hval : valNat (natDigitsRev n).reverse = n := by
      simp only [valNat, List.reverse_reverse]
      exact hv
    refine ⟨?_, hval⟩
    rw [canonNat_iff (allDigits_reverse hd)]
    right
    refine ⟨by simpa using hne, ?_⟩
    rw [hval]
    simpa using hlow

/-- A canonical string is the canonical representation of its value. -/
theorem canonNat_eq_reprN {l : List Char} (h : CanonNat l) : l = reprN (valNat l) := by
  obtain ⟨hc, hv⟩ := reprN_spec (valNat l)
  exact canonNat_unique h hc hv.symm

/-! ### Signed values -/

/-- Integer value of a signed decimal string (leading `'-'` = negative). -/
def toInt (l : List Char) : Int :=
  if l.head? = some '-' then -(valNat l.tail : Int) else (valNat l : Int)

/-- A canonical signed decimal string: either a canonical non-negative string,
or `'-'` followed by a canonical non-zero magnitude (no `"-0"`). -/
def CanonInt (l : List Char) : Prop :=
  if l.head? = some '-' then CanonNat l.tail ∧ l.tail ≠ ['0'] else CanonNat l

instance (l : List Char) : Decidable (CanonInt l) := by
  unfold CanonInt
  infer_instance

theorem canonNat_head_ne_neg {l : List Char} (h : CanonNat l) : l.head? ≠ some '-' := by
  obtain ⟨hd, hne, -⟩ := h
  cases l with
  | nil => simp
  | cons c t =>
    have hcd : c.isDigit = true := (allDigits_cons.mp hd).1
    simp only [List.head?_cons, ne_eq, Option.some_inj]
    intro hc
    subst hc
    exact absurd hcd (by decide)

theorem canonInt_of_canonNat {l : List Char} (h : CanonNat l) : CanonInt l := by
  unfold CanonInt
  rw [if_neg (canonNat_head_ne_neg h)]
  exact h

theorem canonInt_neg {m : List Char} (h : CanonNat m) (h0 : m ≠ ['0']) :
    CanonInt ('-' :: m) := by
  unfold CanonInt
  simp only [List.head?_cons, if_pos rfl]
  exact ⟨h, h0⟩

theorem toInt_canonNat {l : List Char} (h : CanonNat l) : toInt l = (valNat l : Int) := by
  unfold toInt
  rw [if_neg (canonNat_head_ne_neg h)]

theorem toInt_neg_cons (m : List Char) : toInt ('-' :: m) = -(valNat m : Int) := by
  simp [toInt]

theorem canonInt_cases {l : List Char} (h : CanonInt l) :
    CanonNat l ∨ ∃ m, l = '-' :: m ∧ CanonNat m ∧ m ≠ ['0'] := by
  unfold CanonInt at h
  by_cases hh : l.head? = some '-'
  · rw [if_pos hh] at h
    right
    cases l with
    | nil => simp at hh
    | cons c t =>
      simp only [List.head?_cons, Option.some_inj] at hh
      subst hh
      exact ⟨t, rfl, h.1, h.2⟩
  · rw [if_neg hh] at h
    exact Or.inl h

/-! ### Shape equations for the sign-dispatching operations -/

theorem sub_eq_neg_neg (v1 v2 : List Char) : sub ('-' :: v1) ('-' :: v2) = sub v2 v1 := by
  rw [sub.eq_def]
  rfl

theorem sub_eq_neg_pos {v1 b : List Char} (hb : b.head? ≠ some '-') :
    sub ('-' :: v1) b = '-' :: add_positive v1 b := by
  rw [sub.eq_def]
  split <;> simp_all

theorem sub_eq_pos_neg {a v2 : List Char} (ha : a.head? ≠ some '-') :
    sub a ('-' :: v2) = add_positive a v2 := by
  rw [sub.eq_def]
  split <;> simp_all

theorem sub_eq_pos_pos {a b : List Char} (ha : a.head? ≠ some '-') (hb : b.head? ≠ some '-') :
    sub a b = if is_smaller a b then '-' :: sub_positive b a else sub_positive a b := by
  rw [sub.eq_def]
  split <;> simp_all

theorem add_eq_neg_neg (v1 v2 : List Char) :
    add ('-' :: v1) ('-' :: v2) = '-' :: add_positive v1 v2 := rfl

theorem add_eq_neg_pos {v1 b : List Char} (hb : b.head? ≠ some '-') :
    add ('-' :: v1) b = sub b v1 := by
  rw [add.eq_def]
  split <;> simp_all

theorem add_eq_pos_neg {a v2 : List Char} (ha : a.head? ≠ some '-') :
    add a ('-' :: v2) = sub a v2 := by
  rw [add.eq_def]
  split <;> simp_all

theorem add_eq_pos_pos {a b : List Char} (ha : a.head? ≠ some '-') (hb : b.head? ≠ some '-') :
    add a b = add_positive a b := by
  rw [add.eq_def]
  split <;> simp_all

theorem textual_integer_mul_pos_pos {a b : List Char}
    (ha : a.head? ≠ some '-') (hb : b.head? ≠ some '-') :
    textual_integer_mul a b = mul_positive a b := by
  rw [textual_integer_mul.eq_def]
  split <;> simp_all

/-! ### Correctness of signed addition and subtraction -/

/-- Correctness of `sub` on two canonical non-negative strings: exact signed difference. -/
theorem sub_nonneg_spec {v1 v2 : List Char} (h1 : CanonNat v1) (h2 : CanonNat v2) :
    toInt (sub v1 v2) = (valNat v1 : Int) - valNat v2 ∧ CanonInt (sub v1 v2) := by
  rw [sub_eq_pos_pos (canonNat_head_ne_neg h1) (canonNat_head_ne_neg h2)]
  by_cases hsm : is_smaller v1 v2 = true
  · have hlt : valNat v1 < valNat v2 := (is_smaller_spec h1 h2).mp hsm
    obtain ⟨hv, hc⟩ := sub_positive_spec h2 h1 (le_of_lt hlt)
    rw [if_pos hsm, toInt_neg_cons, hv]
    constructor
    · rw [Nat.cast_sub (le_of_lt hlt)]
      ring
    · apply canonInt_neg hc
      intro hz
      have := (canonNat_zero_iff hc).mpr hz
      omega
  · have hge : valNat v2 ≤ valNat v1 := by
      have := (is_smaller_spec h1 h2).not.mp (by simp [hsm])
      omega
    obtain ⟨hv, hc⟩ := sub_positive_spec h1 h2 hge
    rw [if_neg hsm, toInt_canonNat hc, hv, Nat.cast_sub hge]
    exact ⟨rfl, canonInt_of_canonNat hc⟩

/-- Correctness of `add` (the `impl Add for TextualInteger`): it computes the exact integer sum
on canonical signed strings, and returns a canonical signed string. -/
theorem add_int_spec : ∀ (a b : List Char), CanonInt a → CanonInt b →
    toInt (add a b) = toInt a + toInt b ∧ CanonInt (add a b) := by
  intro a b ha hb
  rcases canonInt_cases ha with hA | ⟨m1, rfl, hm1, hz1⟩
  · rcases canonInt_cases hb with hB | ⟨m2, rfl, hm2, hz2⟩
    · rw [add_eq_pos_pos (canonNat_head_ne_neg hA) (canonNat_head_ne_neg hB)]
      obtain ⟨hv, hc⟩ := add_positive_spec hA hB
      rw [toInt_canonNat hc, toInt_canonNat hA, toInt_canonNat hB, hv]
      exact ⟨by push_cast; ring, canonInt_of_canonNat hc⟩
    · rw [add_eq_pos_neg (canonNat_head_ne_neg hA)]
      obtain ⟨hv, hc⟩ := sub_nonneg_spec hA hm2
      rw [hv, toInt_canonNat hA, toInt_neg_cons]
      exact ⟨by ring, hc⟩
  · rcases canonInt_cases hb with hB | ⟨m2, rfl, hm2, hz2⟩
    · rw [add_eq_neg_pos (canonNat_head_ne_neg hB)]
      obtain ⟨hv, hc⟩ := sub_nonneg_spec hB hm1
      rw [hv, toInt_neg_cons, toInt_canonNat hB]
      exact ⟨by ring, hc⟩
    · rw [add_eq_neg_neg]
      obtain ⟨hv, hc⟩ := add_positive_spec hm1 hm2
      rw [toInt_neg_cons, toInt_neg_cons, toInt_neg_cons, hv]
      refine ⟨by push_cast; ring, ?_⟩
      apply canonInt_neg hc
      intro hz
      have h0 := (canonNat_zero_iff hc).mpr hz
      have hn1 : valNat m1 ≠ 0 := fun h => hz1 ((canonNat_zero_iff hm1).mp h)
      omega

/-- Correctness of `sub` (the `impl Sub for TextualInteger`): it computes the exact integer
difference on canonical signed strings, and returns a canonical string. -/
theorem sub_int_spec : ∀ (a b : List Char), CanonInt a → CanonInt b →
    toInt (sub a b) = toInt a - toInt b ∧ CanonInt (sub a b) := by
  intro a b ha hb
  rcases canonInt_cases ha with hA | ⟨m1, rfl, hm1, hz1⟩
  · rcases canonInt_cases hb with hB | ⟨m2, rfl, hm2, hz2⟩
    · obtain ⟨hv, hc⟩ := sub_nonneg_spec hA hB
      rw [hv, toInt_canonNat hA, toInt_canonNat hB]
      exact ⟨rfl, hc⟩
    · rw [sub_eq_pos_neg (canonNat_head_ne_neg hA)]
      obtain ⟨hv, hc⟩ := add_positive_spec hA hm2
      rw [toInt_canonNat hc, toInt_canonNat hA, toInt_neg_cons, hv]
      exact ⟨by push_cast; ring, canonInt_of_canonNat hc⟩
  · rcases canonInt_cases hb with hB | ⟨m2, rfl, hm2, hz2⟩
    · rw [sub_eq_neg_pos (canonNat_head_ne_neg hB)]
      obtain ⟨hv, hc⟩ := add_positive_spec hm1 hB
      rw [toInt_neg_cons, toInt_neg_cons, toInt_canonNat hB, hv]
      refine ⟨by push_cast; ring, ?_⟩
      apply canonInt_neg hc
      intro hz
      have h0 := (canonNat_zero_iff hc).mpr hz
      have hn1 : valNat m1 ≠ 0 := fun h => hz1 ((canonNat_zero_iff hm1).mp h)
      omega
    · rw [sub_eq_neg_neg]
      obtain ⟨hv, hc⟩ := sub_nonneg_spec hm2 hm1
      rw [hv, toInt_neg_cons, toInt_neg_cons]
      exact ⟨by ring, hc⟩

/-! ### The level function -/

theorem levelLoop_formula (n : Nat) : ∀ (s : List Char), s.length = n → s ≠ [] →
    s.head? ≠ some '0' → ∀ lvl, lvl < 256 →
    levelLoop s lvl = (lvl + (s.length + 1) / 2) % 256 := by
  induction n using Nat.strong_induction_on with
  | _ n ih =>
    intro s hlen hne hh lvl hlvl
    have hd1 : 1 ≤ s.length := List.length_pos.mpr hne
    have hs0 : s ≠ ['0'] := by
      intro hz
      subst hz
      simp at hh
    rw [show levelLoop s lvl
        = if s = ['0'] then lvl
          else if s.length ≤ 2 then (lvl + 1) % 256
          else levelLoop (s.take (s.length - 2)) ((lvl + 1) % 256) from by
      rw [levelLoop.eq_def]]
    rw [if_neg hs0]
    by_cases hle : s.length ≤ 2
    · rw [if_pos hle]
      omega
    · rw [if_neg hle]
      have hd3 : 3 ≤ s.length := by omega
      have htl : (s.take (s.length - 2)).length = s.length - 2 := by
        rw [List.length_take]
        omega
      have htne : s.take (s.length - 2) ≠ [] := by
        intro hz
        have := congrArg List.length hz
        rw [htl] at this
        simp at this
        omega
      have hth : (s.take (s.length - 2)).head? ≠ some '0' := by
        cases s with
        | nil => exact absurd rfl hne
        | cons c t =>
          have h2 : 1 ≤ (c :: t).length - 2 := by
            simp only [List.length_cons] at hd3 ⊢
            omega
          rw [show ((c :: t).length - 2) = ((c :: t).length - 3) + 1 from by omega]
          rw [List.take_succ_cons]
          simpa using hh
      rw [ih (s.length - 2) (by omega) _ htl htne hth ((lvl + 1) % 256) (by omega)]
      rw [htl]
      have h1 : (s.length - 2 + 1) / 2 + 1 = (s.length + 1) / 2 := by omega
      omega

/-- The value `level` assigns to a canonical positive decimal string: the
`u8` loop counts `⌈d/2⌉` increments and then subtracts one, all mod 256. -/
theorem level_canon {s : List Char} (h : CanonNat s) (hne : s ≠ ['0']) :
    level s = ((s.length + 1) / 2 + 255) % 256 := by
  have hh0 : s.head? ≠ some '0' := by
    rcases h.2.2 with hz | hh
    · exact absurd hz hne
    · exact hh
  have hhm : s.head? ≠ some '-' := canonNat_head_ne_neg h
  have hsne : s ≠ [] := h.2.1
  unfold level
  rw [if_neg hhm, if_neg hne,
    levelLoop_formula s.length s rfl hsne hh0 0 (by omega)]
  omega

/-! ### The vote-weight function -/

theorem valNat_replicate_zero (k : Nat) : valNat (List.replicate k '0') = 0 := by
  unfold valNat
  rw [List.reverse_replicate]
  induction k with
  | zero => rfl
  | succ k ihk =>
    rw [show List.replicate (k + 1) '0' = '0' :: List.replicate k '0' from rfl]
    simp only [valRev, ihk, show toDigit '0' = 0 from rfl]

theorem canonNat_one_replicate (k : Nat) : CanonNat ('1' :: List.replicate k '0') := by
  refine ⟨?_, by simp, Or.inr (by simp)⟩
  intro c hc
  rcases List.mem_cons.mp hc with h | h
  · subst h; decide
  · have := List.eq_of_mem_replicate h
    subst this; decide

theorem valNat_one_replicate (k : Nat) : valNat ('1' :: List.replicate k '0') = 10 ^ k := by
  rw [valNat_cons, valNat_replicate_zero, List.length_replicate,
    show toDigit '1' = 1 from rfl]
  omega

/-- The canonical string of `10 ^ k` is a one followed by `k` zeros. -/
theorem reprN_pow_ten (k : Nat) : reprN (10 ^ k) = '1' :: List.replicate k '0' := by
  have h := reprN_spec (10 ^ k)
  exact canonNat_unique h.1 (canonNat_one_replicate k)
    (by rw [h.2, valNat_one_replicate])

theorem strLt_replicate_zero : ∀ (a b : Nat),
    strLt (List.replicate a '0') (List.replicate b '0') = decide (a < b) := by
  intro a
  induction a with
  | zero =>
    intro b
    cases b with
    | zero => rfl
    | succ b => simp [List.replicate, strLt]
  | succ a iha =>
    intro b
    cases b with
    | zero => simp [List.replicate, strLt]
    | succ b =>
      rw [show List.replicate (a + 1) '0' = '0' :: List.replicate a '0' from rfl,
        show List.replicate (b + 1) '0' = '0' :: List.replicate b '0' from rfl]
      rw [show strLt ('0' :: List.replicate a '0') ('0' :: List.replicate b '0')
          = strLt (List.replicate a '0') (List.replicate b '0') from by
        simp [strLt]]
      rw [iha b]
      simp only [decide_eq_decide]
      omega

theorem strLt_pow_ten (a b : Nat) :
    strLt (reprN (10 ^ a)) (reprN (10 ^ b)) = decide (a < b) := by
  rw [reprN_pow_ten, reprN_pow_ten]
  rw [show strLt ('1' :: List.replicate a '0') ('1' :: List.replicate b '0')
      = strLt (List.replicate a '0') (List.replicate b '0') from by simp [strLt]]
  exact strLt_replicate_zero a b

theorem minimal_score_of_level_eq (lvl : Nat) :
    minimal_score_of_level lvl = reprN (10 ^ (2 * lvl)) := by
  unfold minimal_score_of_level
  obtain ⟨hv, hc⟩ := pow_spec (show CanonNat ['1', '0', '0'] from by decide) lvl
  have h100 : valNat ['1', '0', '0'] = 100 := by decide
  rw [canonNat_eq_reprN hc, hv, h100]
  congr 1
  rw [show (100:Nat) = 10 ^ 2 from by norm_num, ← pow_mul]

theorem mul_ten_eq (lvl : Nat) :
    textual_integer_mul (minimal_score_of_level lvl) ['1', '0']
      = reprN (10 ^ (2 * lvl + 1)) := by
  rw [minimal_score_of_level_eq]
  have hc1 := (reprN_spec (10 ^ (2 * lvl))).1
  have hv1 := (reprN_spec (10 ^ (2 * lvl))).2
  have hc2 : CanonNat ['1', '0'] := by decide
  rw [textual_integer_mul_pos_pos (canonNat_head_ne_neg hc1) (by decide)]
  obtain ⟨hv, hc⟩ := mul_positive_spec hc1 hc2
  rw [canonNat_eq_reprN hc, hv, hv1, show valNat ['1', '0'] = 10 from by decide,
    pow_succ]

/-- Branch analysis of `calculate_vote_score`: the Rust `String >` comparison
of the two powers of ten decides exactly `voter_level > target_level`. -/
theorem calculate_vote_score_spec (t v : Nat) :
    (t < v → calculate_vote_score t v
        = textual_integer_mul (minimal_score_of_level t) ['1', '0'])
    ∧ (v ≤ t → calculate_vote_score t v = minimal_score_of_level v)
    ∧ valNat (calculate_vote_score t v) = (if t < v then 10 * 100 ^ t else 100 ^ v)
    ∧ CanonNat (calculate_vote_score t v) := by
  have hcond : strLt (textual_integer_mul (minimal_score_of_level t) ['1', '0'])
      (minimal_score_of_level v) = decide (t < v) := by
    rw [mul_ten_eq, minimal_score_of_level_eq, strLt_pow_ten]
    simp only [decide_eq_decide]
    omega
  have hvm : valNat (minimal_score_of_level v) = 100 ^ v := by
    rw [minimal_score_of_level_eq, (reprN_spec _).2,
      show (100:Nat) = 10 ^ 2 from by norm_num, ← pow_mul]
  have hvt : valNat (textual_integer_mul (minimal_score_of_level t) ['1', '0'])
      = 10 * 100 ^ t := by
    rw [mul_ten_eq, (reprN_spec _).2, pow_succ,
      show (100:Nat) = 10 ^ 2 from by norm_num, ← pow_mul]
    ring
  unfold calculate_vote_score
  simp only [hcond, decide_eq_true_eq]
  by_cases hlt : t < v
  · rw [if_pos hlt, if_pos hlt]
    refine ⟨fun _ => rfl, fun h => absurd hlt (by omega), hvt, ?_⟩
    rw [mul_ten_eq]
    exact (reprN_spec _).1
  · rw [if_neg hlt, if_neg hlt]
    refine ⟨fun h => absurd h hlt, fun _ => rfl, hvm, ?_⟩
    rw [minimal_score_of_level_eq]
    exact (reprN_spec _).1

/-! ### The SQLite vote ledger, modelled as explicit state -/

/-- Wrapping `u64` increment. -/
def u64succ (a : Nat) : Nat := (a + 1) % 2 ^ 64

/-- Wrapping `u64` decrement (`x -= 1` in release mode wraps at zero). -/
def u64pred (a : Nat) : Nat := (a + (2 ^ 64 - 1)) % 2 ^ 64

/-- The `Score` struct of `score.rs`: one row of the `score` table. -/
structure Score where
  address : List Char
  field_address : List Char
  score : List Char
  upvote : Nat
  downvote : Nat
deriving DecidableEq

/-- One row of the `votes` table. -/
structure VoteRow where
  from_address : List Char
  to_address : List Char
  voted_score : List Char
deriving DecidableEq

/-- One row of the `fields` table. -/
structure FieldRow where
  address : List Char
  name : List Char
deriving DecidableEq

/-- The persistent state touched by the vote path: the `score`, `votes` and
`fields` tables. -/
structure DB where
  scores : List Score
  votes : List VoteRow
  fields : List FieldRow
deriving DecidableEq

namespace Sqlite

/-- Query `SELECT ... FROM score WHERE address = ?1 AND field_address = ?2`
(first matching row). -/
def lookupScore (db : DB) (address field_address : List Char) : Option Score :=
  db.scores.find? (fun r => r.address == address && r.field_address == field_address)

/-- Embedding of `Sqlite::select_score`: the row if present, otherwise the all-zero
default (`score = "0", upvote = 0, downvote = 0`). -/
def select_score (db : DB) (address field_address : List Char) : Score :=
  match lookupScore db address field_address with
  | some s => s
  | none => ⟨address, field_address, ['0'], 0, 0⟩

/-- Query `SELECT voted_score FROM votes WHERE from_address = ?1 AND to_address = ?2`
(first matching row). -/
def lookupVote (db : DB) (frm toAddr : List Char) : Option (List Char) :=
  (db.votes.find? (fun r => r.from_address == frm && r.to_address == toAddr)).map
    (fun r => r.voted_score)

/-- Statement `UPDATE votes SET voted_score = ?1 WHERE from_address = ?2 AND to_address = ?3`. -/
def updateVotes (db : DB) (frm toAddr w : List Char) : DB :=
  { db with votes := db.votes.map (fun r =>
      if r.from_address == frm && r.to_address == toAddr
      then { r with voted_score := w } else r) }

/-- Statement `INSERT OR REPLACE INTO votes ...`: the `votes` table declares no primary
key or unique constraint, so this always appends a fresh row. -/
def insertVote (db : DB) (frm toAddr w : List Char) : DB :=
  { db with votes := db.votes ++ [⟨frm, toAddr, w⟩] }

/-- Embedding of `Sqlite::update_score`: a SQL `UPDATE ... WHERE address = ?4 AND
field_address = ?5`.  It rewrites matching rows and **inserts nothing** when
no row matches (`Ok(0 rows)` is still `Ok`). -/
def update_score (db : DB) (s : Score) : DB :=
  { db with scores := db.scores.map (fun r =>
      if r.address == s.address && r.field_address == s.field_address
      then { r with score := s.score, upvote := s.upvote, downvote := s.downvote }
      else r) }

/-- Lines 68–77 of `db_sqlite.rs` (the flip branch): unguarded wrapping `u64`
counter shuffling, then `score += w; score -= previous`. -/
def flipScore (score : Score) (w p : List Char) : Score :=
  let s1 := if is_positive w
    then { score with upvote := u64succ score.upvote, downvote := u64pred score.downvote }
    else { score with upvote := u64pred score.upvote, downvote := u64succ score.downvote }
  { s1 with score := sub (add s1.score w) p }

/-- Lines 88–94 of `db_sqlite.rs` (the first-vote branch). -/
def firstVoteScore (score : Score) (w : List Char) : Score :=
  let s1 := if is_positive w
    then { score with upvote := u64succ score.upvote }
    else { score with downvote := u64succ score.downvote }
  { s1 with score := add s1.score w }

/-- Embedding of `Sqlite::vote`: the single transactional entry point.  Returns the
`Result` together with the post-transaction state; the "Already voted" path
returns before any write (the dropped transaction rolls back), so the state
is returned unchanged. -/
def vote (db : DB) (frm toAddr voted_score field_address : List Char) :
    Except String Unit × DB :=
  let score := select_score db toAddr field_address
  match lookupVote db frm toAddr with
  | some history_voted_score =>
      if is_positive history_voted_score = is_positive voted_score then
        (Except.error ("Already voted"), db)
      else
        let db1 := updateVotes db frm toAddr voted_score
        (Except.ok (), update_score db1 (flipScore score voted_score history_voted_score))
  | none =>
      let db1 := insertVote db frm toAddr voted_score
      (Except.ok (), update_score db1 (firstVoteScore score voted_score))

/-- Embedding of `Sqlite::upvote` (trait method): delegates to `vote`. -/
def upvote (db : DB) (frm toAddr voted_score field_address : List Char) :
    Except String Unit × DB :=
  vote db frm toAddr voted_score field_address

/-- Embedding of `Sqlite::downvote` (trait method): delegates to `vote`; the caller passes
the already negated weight. -/
def downvote (db : DB) (frm toAddr voted_score field_address : List Char) :
    Except String Unit × DB :=
  vote db frm toAddr voted_score field_address

/-- Query `SELECT address, name FROM fields WHERE address = ?1`, as used by
`select_field(None, Some(address))`. -/
def select_field (db : DB) (address : List Char) : Option FieldRow :=
  db.fields.find? (fun f => f.address == address)

end Sqlite

/-! ### The in-memory `Comment` and `Post` of `post.rs` -/

/-- The `Comment` struct (the lazily loaded nested `comments` vector plays no
part in the vote path and is not modelled). -/
structure Comment where
  address : List Char
  from_address : List Char
  to_address : List Char
  score : List Char
  upvote : Nat
  downvote : Nat
  content : List Char
  timestamp : Int
  field_address : List Char
deriving DecidableEq

/-- The `Post` struct (same remark about `comments`). -/
structure Post where
  address : List Char
  from_address : List Char
  to_address : List Char
  title : List Char
  content : List Char
  score : List Char
  upvote : Nat
  downvote : Nat
  timestamp : Int
deriving DecidableEq

/-- Embedding of `inner_calculate_vote_score` from `post.rs`.  The Rust code `.unwrap()`s
the field lookup (a panic when the field is missing): `none` models the
panic path.  Note the swapped arguments of the voter-score lookup in the
source: `select_score(&field.address, from)`. -/
def inner_calculate_vote_score (db : DB) (field_address frm self_score : List Char) :
    Option (List Char) :=
  match Sqlite.select_field db field_address with
  | none => none
  | some field =>
      let voter_score := Sqlite.select_score db field.address frm
      let voter_level := level voter_score.score
      let self_level := level self_score
      some (calculate_vote_score self_level voter_level)

/-- Embedding of `Comment::upvote` (named `castUpvote` because the struct already has an
`upvote` field).  The local `score`/`upvote` mutation happens
unconditionally ("regardless of database result", per the source comment);
the ledger's `Result` is passed through. -/
def Comment.castUpvote (db : DB) (c : Comment) (upvoter : List Char) :
    Option (Except String Unit × Comment × DB) :=
  match inner_calculate_vote_score db c.field_address upvoter c.score with
  | none => none
  | some vote_score =>
      if vote_score = ['0'] then some (Except.error ("Vote vote_score is 0"), c, db)
      else
        let r := Sqlite.upvote db upvoter c.address vote_score c.field_address
        some (r.1, { c with score := add c.score vote_score, upvote := u64succ c.upvote }, r.2)

/-- Embedding of `Comment::downvote`: it negates the computed weight textually
(`format!("-{}", ...)`) before calling the ledger, then unconditionally
applies `score -= vote_score; downvote += 1` locally. -/
def Comment.castDownvote (db : DB) (c : Comment) (downvoter : List Char) :
    Option (Except String Unit × Comment × DB) :=
  match inner_calculate_vote_score db c.field_address downvoter c.score with
  | none => none
  | some vote_score =>
      if vote_score = ['0'] then some (Except.error ("Vote vote_score is 0"), c, db)
      else
        let r := Sqlite.downvote db downvoter c.address ('-' :: vote_score) c.field_address
        some (r.1, { c with score := sub c.score vote_score, downvote := u64succ c.downvote }, r.2)

/-- Embedding of `Post::upvote` (the field address of a post is its `to`). -/
def Post.castUpvote (db : DB) (p : Post) (upvoter : List Char) :
    Option (Except String Unit × Post × DB) :=
  match inner_calculate_vote_score db p.to_address upvoter p.score with
  | none => none
  | some vote_score =>
      if vote_score = ['0'] then some (Except.error ("Vote vote_score is 0"), p, db)
      else
        let r := Sqlite.upvote db upvoter p.address vote_score p.to_address
        some (r.1, { p with score := add p.score vote_score, upvote := u64succ p.upvote }, r.2)

/-- Embedding of `Post::downvote`. -/
def Post.castDownvote (db : DB) (p : Post) (downvoter : List Char) :
    Option (Except String Unit × Post × DB) :=
  match inner_calculate_vote_score db p.to_address downvoter p.score with
  | none => none
  | some vote_score =>
      if vote_score = ['0'] then some (Except.error ("Vote vote_score is 0"), p, db)
      else
        let r := Sqlite.downvote db downvoter p.address ('-' :: vote_score) p.to_address
        some (r.1, { p with score := sub p.score vote_score, downvote := u64succ p.downvote }, r.2)

/-! ### Small lemmas about the modelled SQL operations -/

/-- After `UPDATE votes ... WHERE from/to`, the first row the `SELECT` finds
for that key carries the new weight (provided a row existed). -/
theorem lookupVote_updateVotes (db : DB) (frm toAddr w : List Char)
    (h : (Sqlite.lookupVote db frm toAddr).isSome) :
    Sqlite.lookupVote (Sqlite.updateVotes db frm toAddr w) frm toAddr = some w := by
  obtain ⟨scores, votes, fields⟩ := db
  unfold Sqlite.lookupVote Sqlite.updateVotes
  unfold Sqlite.lookupVote at h
  simp only at h ⊢
  induction votes with
  | nil => simp at h
  | cons r l ih =>
    by_cases hm : (r.from_address == frm && r.to_address == toAddr) = true
    · simp only [List.map_cons, if_pos hm]
      have hm' : (({ r with voted_score := w } : VoteRow).from_address == frm
          && ({ r with voted_score := w } : VoteRow).to_address == toAddr) = true := hm
      simp only [List.find?, hm']
      simp
    · have hm' : (r.from_address == frm && r.to_address == toAddr) = false := by
        simpa using hm
      simp only [List.map_cons, List.find?, hm', Bool.false_eq_true, if_false] at h ⊢
      exact ih h

/-- After `UPDATE score ... WHERE address/field`, the row the `SELECT` finds
holds exactly the written values (provided a row existed). -/
theorem lookupScore_update_score (db : DB) (s : Score)
    (h : (Sqlite.lookupScore db s.address s.field_address).isSome) :
    Sqlite.lookupScore (Sqlite.update_score db s) s.address s.field_address
      = some ⟨s.address, s.field_address, s.score, s.upvote, s.downvote⟩ := by
  obtain ⟨scores, votes, fields⟩ := db
  unfold Sqlite.lookupScore Sqlite.update_score
  unfold Sqlite.lookupScore at h
  simp only at h ⊢
  induction scores with
  | nil => simp at h
  | cons r l ih =>
    by_cases hm : (r.address == s.address && r.field_address == s.field_address) = true
    · cases r with
      | mk a f sc uv dv =>
        simp only [List.map_cons, if_pos hm]
        simp only [List.find?]
        simp_all
    · have hm' : (r.address == s.address && r.field_address == s.field_address) = false := by
        simpa using hm
      simp only [List.map_cons, List.find?, hm', Bool.false_eq_true, if_false] at h ⊢
      exact ih h

/-- When no score row matches, the `UPDATE` leaves the database unchanged. -/
theorem update_score_of_none (db : DB) (s : Score)
    (h : Sqlite.lookupScore db s.address s.field_address = none) :
    Sqlite.update_score db s = db := by
  unfold Sqlite.lookupScore at h
  unfold Sqlite.update_score
  have hall := List.find?_eq_none.mp h
  have hmap : db.scores.map (fun r =>
      if r.address == s.address && r.field_address == s.field_address
      then { r with score := s.score, upvote := s.upvote, downvote := s.downvote }
      else r) = db.scores := by
    conv_rhs => rw [← List.map_id db.scores]
    apply List.map_congr_left
    intro r hr
    have hnr := hall r hr
    simp only [id]
    rw [if_neg hnr]
  rw [hmap]

/-- Insertion appends; a key that was absent is afterwards found with the
inserted value. -/
theorem lookupVote_insertVote (db : DB) (frm toAddr w : List Char)
    (h : Sqlite.lookupVote db frm toAddr = none) :
    Sqlite.lookupVote (Sqlite.insertVote db frm toAddr w) frm toAddr = some w := by
  obtain ⟨scores, votes, fields⟩ := db
  unfold Sqlite.lookupVote Sqlite.insertVote
  unfold Sqlite.lookupVote at h
  simp only at h ⊢
  induction votes with
  | nil => simp [List.find?]
  | cons r l ih =>
    by_cases hm : (r.from_address == frm && r.to_address == toAddr) = true
    · simp only [List.find?, hm] at h
      simp at h
    · have hm' : (r.from_address == frm && r.to_address == toAddr) = false := by
        simpa using hm
      simp only [List.find?, hm', List.cons_append] at h ⊢
      exact ih h

/-- The two tables are independent: the score `UPDATE` and the vote
writes do not touch each other. -/
theorem update_score_votes (db : DB) (s : Score) :
    (Sqlite.update_score db s).votes = db.votes := rfl

theorem updateVotes_scores (db : DB) (frm toAddr w : List Char) :
    (Sqlite.updateVotes db frm toAddr w).scores = db.scores := rfl

theorem insertVote_scores (db : DB) (frm toAddr w : List Char) :
    (Sqlite.insertVote db frm toAddr w).scores = db.scores := rfl

/-! ### Signed canonical representation -/

/-- Canonical decimal string of an integer. -/
def reprInt (n : Int) : List Char :=
  if n < 0 then '-' :: reprN n.natAbs else reprN n.toNat

theorem canonInt_unique {a b : List Char} (ha : CanonInt a) (hb : CanonInt b)
    (h : toInt a = toInt b) : a = b := by
  rcases canonInt_cases ha with hA | ⟨m1, rfl, hm1, hz1⟩
  · rcases canonInt_cases hb with hB | ⟨m2, rfl, hm2, hz2⟩
    · rw [toInt_canonNat hA, toInt_canonNat hB] at h
      exact canonNat_unique hA hB (by exact_mod_cast h)
    · exfalso
      rw [toInt_canonNat hA, toInt_neg_cons] at h
      have h2 : valNat m2 ≠ 0 := fun hv => hz2 ((canonNat_zero_iff hm2).mp hv)
      omega
  · rcases canonInt_cases hb with hB | ⟨m2, rfl, hm2, hz2⟩
    · exfalso
      rw [toInt_neg_cons, toInt_canonNat hB] at h
      have h1 : valNat m1 ≠ 0 := fun hv => hz1 ((canonNat_zero_iff hm1).mp hv)
      omega
    · rw [toInt_neg_cons, toInt_neg_cons] at h
      have : valNat m1 = valNat m2 := by omega
      rw [canonNat_unique hm1 hm2 this]

theorem reprInt_spec (n : Int) : CanonInt (reprInt n) ∧ toInt (reprInt n) = n := by
  unfold reprInt
  by_cases hn : n < 0
  · rw [if_pos hn]
    obtain ⟨hc, hv⟩ := reprN_spec n.natAbs
    constructor
    · apply canonInt_neg hc
      intro hz
      have h0 := (canonNat_zero_iff hc).mpr hz
      rw [hv] at h0
      omega
    · rw [toInt_neg_cons, hv]
      omega
  · rw [if_neg hn]
    obtain ⟨hc, hv⟩ := reprN_spec n.toNat
    refine ⟨canonInt_of_canonNat hc, ?_⟩
    rw [toInt_canonNat hc, hv]
    omega

/-! ### u64 wrapping helpers -/

theorem u64succ_eq {a : Nat} (h : a + 1 < 2 ^ 64) : u64succ a = a + 1 := by
  unfold u64succ
  omega

theorem u64pred_eq {a : Nat} (h1 : 1 ≤ a) (h2 : a < 2 ^ 64) : u64pred a = a - 1 := by
  unfold u64pred
  omega

theorem u64pred_zero : u64pred 0 = 2 ^ 64 - 1 := by
  unfold u64pred
  omega

/-! ## Claim theorems -/

/-- C4: for every pair of levels `t` (target) and `v` (voter), if `v > t`
the vote-weight function returns `10 * minimal_score_of_level t = 10 * 100^t`;
if `v ≤ t` it returns `minimal_score_of_level v = 100^v`; and the returned
value is never zero. -/
theorem C4_vote_weight_capped (t v : Nat) :
    (t < v → calculate_vote_score t v
        = textual_integer_mul (minimal_score_of_level t) ['1', '0']
      ∧ valNat (calculate_vote_score t v) = 10 * 100 ^ t)
    ∧ (v ≤ t → calculate_vote_score t v = minimal_score_of_level v
      ∧ valNat (calculate_vote_score t v) = 100 ^ v)
    ∧ valNat (calculate_vote_score t v) ≠ 0 := by
  obtain ⟨h1, h2, h3, -⟩ := calculate_vote_score_spec t v
  refine ⟨fun h => ⟨h1 h, by rw [h3, if_pos h]⟩,
    fun h => ⟨h2 h, by rw [h3, if_neg (by omega)]⟩, ?_⟩
  rw [h3]
  split
  · have : 0 < (100:Nat) ^ t := Nat.pos_pow_of_pos _ (by omega)
    omega
  · have : 0 < (100:Nat) ^ v := Nat.pos_pow_of_pos _ (by omega)
    omega

/-- Witness for C4 at the concrete levels of the source tests:
`vote_weight(0, 5) = 10` (capped) and `vote_weight(2, 1) = 100`. -/
theorem C4_witness :
    ((0:Nat) < 5 ∧ valNat (calculate_vote_score 0 5) = 10 * 100 ^ 0)
    ∧ ((1:Nat) ≤ 2 ∧ valNat (calculate_vote_score 2 1) = 100 ^ 1) :=
  ⟨⟨by omega, ((C4_vote_weight_capped 0 5).1 (by omega)).2⟩,
   ⟨by omega, ((C4_vote_weight_capped 2 1).2.1 (by omega)).2⟩⟩

/-- C6: parsing the decimal strings of non-negative integers and applying the
`TextualInteger` operations agrees with exact integer arithmetic:
`parse a + parse b = parse (a+b)`, `parse a - parse b = parse (a-b)` with the
correct sign when `a < b`, and `parse a * parse b = parse (a*b)`. -/
theorem C6_textual_integer_arith (a b : Nat) :
    add (reprN a) (reprN b) = reprN (a + b)
    ∧ sub (reprN a) (reprN b) = reprInt ((a : Int) - (b : Int))
    ∧ mul (reprN a) (reprN b) = reprN (a * b) := by
  obtain ⟨hca, hva⟩ := reprN_spec a
  obtain ⟨hcb, hvb⟩ := reprN_spec b
  have hA := canonNat_head_ne_neg hca
  have hB := canonNat_head_ne_neg hcb
  refine ⟨?_, ?_, ?_⟩
  · rw [add_eq_pos_pos hA hB]
    obtain ⟨hv, hc⟩ := add_positive_spec hca hcb
    rw [canonNat_eq_reprN hc, hv, hva, hvb]
  · obtain ⟨hv, hc⟩ := sub_nonneg_spec hca hcb
    obtain ⟨hc2, hv2⟩ := reprInt_spec ((a : Int) - (b : Int))
    apply canonInt_unique hc hc2
    rw [hv, hv2, hva, hvb]
  · unfold mul
    rw [if_neg (by simp [hA, hB])]
    obtain ⟨hv, hc⟩ := mul_positive_spec hca hcb
    rw [canonNat_eq_reprN hc, hv, hva, hvb]

/-- C7: on canonical non-negative decimal strings, `is_smaller` decides
exactly strict numeric order. -/
theorem C7_is_smaller_decides_order {a b : List Char}
    (ha : CanonNat a) (hb : CanonNat b) :
    is_smaller a b = true ↔ valNat a < valNat b :=
  is_smaller_spec ha hb

/-- Witness for C7 at `9 < 10` (shorter string) — hypotheses discharged at
concrete canonical strings. -/
theorem C7_witness :
    CanonNat ['9'] ∧ CanonNat ['1', '0']
    ∧ (is_smaller ['9'] ['1', '0'] = true ↔ valNat ['9'] < valNat ['1', '0']) :=
  ⟨by decide, by decide, C7_is_smaller_decides_order (by decide) (by decide)⟩

/-- C8: `pow base 0 = "1"` for every base, including `"0"` and negative
values; and on a canonical non-negative base the square-and-multiply loop
computes exactly `base ^ e`. -/
theorem C8_pow_correct (base : List Char) (e : Nat) :
    pow base 0 = ['1']
    ∧ (CanonNat base → valNat (pow base e) = valNat base ^ e) :=
  ⟨rfl, fun h => (pow_spec h e).1⟩

/-- Witness for C8 at base `"2"`, exponent 6. -/
theorem C8_witness :
    CanonNat ['2'] ∧ pow ['2'] 0 = ['1']
    ∧ valNat (pow ['2'] 6) = valNat ['2'] ^ 6 :=
  ⟨by decide, (C8_pow_correct ['2'] 6).1, (C8_pow_correct ['2'] 6).2 (by decide)⟩

/-- C5 counterexample: the claim says a canonical positive decimal string of
`d` digits gets level `⌈d/2⌉ − 1`, but the `u8` counter wraps mod 256: at the
513-digit score `1` followed by 512 zeros the code returns `0`, while
`⌈513/2⌉ − 1 = 256`. -/
theorem C5_counterexample :
    level ('1' :: List.replicate 512 '0') = 0
    ∧ (('1' :: List.replicate 512 '0').length + 1) / 2 - 1 = 256 := by
  constructor
  · rw [level_canon (canonNat_one_replicate 512) (by
      intro h
      have h1 : '1' = '0' := by injection h
      exact absurd h1 (by decide))]
    simp only [List.length_cons, List.length_replicate]
  · simp only [List.length_cons, List.length_replicate]

/-- C5 (amended): `level "0" = 0`; any string beginning with `'-'` gets level
`1`; a canonical positive decimal string of `d` digits gets level
`(⌈d/2⌉ − 1) mod 256` — which equals `⌈d/2⌉ − 1` whenever `d ≤ 512` — and the
fixed points `level(1)=0`, `level(99)=0`, `level(100)=1`, `level(9999)=1`,
`level(10000)=2`, `level(1000000)=3` all hold. -/
theorem C5_level_amended :
    level ['0'] = 0
    ∧ (∀ s : List Char, s.head? = some '-' → level s = 1)
    ∧ (∀ s : List Char, CanonNat s → s ≠ ['0'] →
        level s = ((s.length + 1) / 2 + 255) % 256
        ∧ (s.length ≤ 512 → level s = (s.length + 1) / 2 - 1))
    ∧ level ['1'] = 0 ∧ level ['9', '9'] = 0 ∧ level ['1', '0', '0'] = 1
    ∧ level ['9', '9', '9', '9'] = 1 ∧ level ['1', '0', '0', '0', '0'] = 2
    ∧ level ['1', '0', '0', '0', '0', '0', '0'] = 3 := by
  have hgen : ∀ s : List Char, CanonNat s → s ≠ ['0'] →
      level s = ((s.length + 1) / 2 + 255) % 256 := fun s h h2 => level_canon h h2
  refine ⟨rfl, fun s h => by simp [level, h], fun s hc hne => ⟨hgen s hc hne, fun hle => ?_⟩,
    ?_, ?_, ?_, ?_, ?_, ?_⟩
  · have h1 : 1 ≤ s.length := List.length_pos.mpr hc.2.1
    rw [hgen s hc hne]
    omega
  · rw [hgen ['1'] (by decide) (by decide)]
    decide
  · rw [hgen ['9', '9'] (by decide) (by decide)]
    decide
  · rw [hgen ['1', '0', '0'] (by decide) (by decide)]
    decide
  · rw [hgen ['9', '9', '9', '9'] (by decide) (by decide)]
    decide
  · rw [hgen ['1', '0', '0', '0', '0'] (by decide) (by decide)]
    decide
  · rw [hgen ['1', '0', '0', '0', '0', '0', '0'] (by decide) (by decide)]
    decide

/-- Witness for C5 (amended), at the two-digit canonical score `"75"`. -/
theorem C5_witness :
    CanonNat ['7', '5'] ∧ (['7', '5'] : List Char) ≠ ['0']
    ∧ level ['7', '5'] = (((['7', '5'] : List Char).length + 1) / 2 + 255) % 256 :=
  ⟨by decide, by decide, (C5_level_amended.2.2.1 ['7', '5'] (by decide) (by decide)).1⟩

/-! ### Claim C1, C2, C3, C9, C10 -/

theorem lookupScore_keys {db : DB} {a f : List Char} {r : Score}
    (h : Sqlite.lookupScore db a f = some r) : r.address = a ∧ r.field_address = f := by
  unfold Sqlite.lookupScore at h
  have h2 := List.find?_some h
  constructor
  · have : (r.address == a) = true := by
      cases hb : (r.address == a) <;> simp_all
    simpa using this
  · have : (r.field_address == f) = true := by
      cases hb : (r.field_address == f) <;> simp_all
    simpa using this

theorem lookupVote_update_score (db : DB) (s : Score) (frm toAddr : List Char) :
    Sqlite.lookupVote (Sqlite.update_score db s) frm toAddr
      = Sqlite.lookupVote db frm toAddr := rfl

theorem lookupScore_updateVotes (db : DB) (frm toAddr w a f : List Char) :
    Sqlite.lookupScore (Sqlite.updateVotes db frm toAddr w) a f
      = Sqlite.lookupScore db a f := rfl

theorem lookupScore_insertVote (db : DB) (frm toAddr w a f : List Char) :
    Sqlite.lookupScore (Sqlite.insertVote db frm toAddr w) a f
      = Sqlite.lookupScore db a f := rfl

/-- C1: if a vote record for (voter, target) already exists whose stored
weight has the same sign as the new non-zero weight `w`, `Sqlite::vote`
returns the error "Already voted" and the database — the Score Aggregate row
for (target, field) and the existing Vote Record included — is completely
unchanged. -/
theorem C1_same_direction_rejected (db : DB) (frm toAddr w field_address p : List Char)
    (hp : Sqlite.lookupVote db frm toAddr = some p)
    (hpz : toInt p ≠ 0) (hwz : toInt w ≠ 0)
    (hsign : is_positive p = is_positive w) :
    Sqlite.vote db frm toAddr w field_address = (Except.error ("Already voted"), db) := by
  unfold Sqlite.vote
  rw [hp]
  simp [hsign]

/-- Witness for C1: voter `"A"` already upvoted target `"T"` with weight
`"1"`; casting `"1"` again is rejected with no state change. -/
theorem C1_witness :
    Sqlite.vote (DB.mk [] [⟨['A'], ['T'], ['1']⟩] []) ['A'] ['T'] ['1'] ['F']
      = (Except.error ("Already voted"), DB.mk [] [⟨['A'], ['T'], ['1']⟩] []) :=
  C1_same_direction_rejected (DB.mk [] [⟨['A'], ['T'], ['1']⟩] []) ['A'] ['T'] ['1'] ['F'] ['1']
    (by decide) (by decide) (by decide) (by decide)

/-- C2: if a vote record with weight `p` of the opposite sign exists, a
successful `Sqlite::vote` updates the vote record's stored weight to `w` and
updates the Score Aggregate so that its score increases by exactly `w − p`,
with `upvote + 1`/`downvote − 1` when `w` is positive and symmetrically when
`w` is negative. -/
theorem C2_flip_updates (db : DB) (frm toAddr field_address w p : List Char) (r : Score)
    (hv : Sqlite.lookupVote db frm toAddr = some p)
    (hsign : ¬ is_positive p = is_positive w)
    (hrow : Sqlite.lookupScore db toAddr field_address = some r)
    (hcw : CanonInt w) (hcp : CanonInt p) (hcs : CanonInt r.score)
    (hub : r.upvote < 2 ^ 64) (hdb : r.downvote < 2 ^ 64)
    (hcnt : (is_positive w = true → 1 ≤ r.downvote ∧ r.upvote + 1 < 2 ^ 64)
          ∧ (is_positive w = false → 1 ≤ r.upvote ∧ r.downvote + 1 < 2 ^ 64)) :
    (Sqlite.vote db frm toAddr w field_address).1 = Except.ok ()
    ∧ Sqlite.lookupVote (Sqlite.vote db frm toAddr w field_address).2 frm toAddr = some w
    ∧ ∃ r2 : Score,
        Sqlite.lookupScore (Sqlite.vote db frm toAddr w field_address).2 toAddr field_address
          = some r2
        ∧ toInt r2.score = toInt r.score + toInt w - toInt p
        ∧ (is_positive w = true → r2.upvote = r.upvote + 1 ∧ r2.downvote = r.downvote - 1)
        ∧ (is_positive w = false → r2.upvote = r.upvote - 1 ∧ r2.downvote = r.downvote + 1) := by
  obtain ⟨hka, hkf⟩ := lookupScore_keys hrow
  have hsel : Sqlite.select_score db toAddr field_address = r := by
    unfold Sqlite.select_score
    rw [hrow]
  have hred : Sqlite.vote db frm toAddr w field_address
      = (Except.ok (), Sqlite.update_score (Sqlite.updateVotes db frm toAddr w)
          (Sqlite.flipScore r w p)) := by
    unfold Sqlite.vote
    rw [hv, hsel]
    simp [hsign]
  rw [hred]
  have hflipkeys : (Sqlite.flipScore r w p).address = toAddr
      ∧ (Sqlite.flipScore r w p).field_address = field_address := by
    unfold Sqlite.flipScore
    by_cases hw : is_positive w = true <;> simp [hw, hka, hkf]
  have hsome : (Sqlite.lookupScore (Sqlite.updateVotes db frm toAddr w)
      (Sqlite.flipScore r w p).address (Sqlite.flipScore r w p).field_address).isSome := by
    rw [lookupScore_updateVotes, hflipkeys.1, hflipkeys.2, hrow]
    rfl
  have hlook := lookupScore_update_score (Sqlite.updateVotes db frm toAddr w)
    (Sqlite.flipScore r w p) hsome
  refine ⟨rfl, ?_, ?_⟩
  · rw [show (Except.ok (), Sqlite.update_score (Sqlite.updateVotes db frm toAddr w)
        (Sqlite.flipScore r w p)).2
        = Sqlite.update_score (Sqlite.updateVotes db frm toAddr w) (Sqlite.flipScore r w p)
        from rfl]
    rw [lookupVote_update_score]
    exact lookupVote_updateVotes db frm toAddr w (by rw [hv]; rfl)
  · refine ⟨⟨(Sqlite.flipScore r w p).address, (Sqlite.flipScore r w p).field_address,
        (Sqlite.flipScore r w p).score, (Sqlite.flipScore r w p).upvote,
        (Sqlite.flipScore r w p).downvote⟩, ?_, ?_, ?_, ?_⟩
    · rw [show (Except.ok (), Sqlite.update_score (Sqlite.updateVotes db frm toAddr w)
          (Sqlite.flipScore r w p)).2
          = Sqlite.update_score (Sqlite.updateVotes db frm toAddr w) (Sqlite.flipScore r w p)
          from rfl]
      rw [← hflipkeys.1, ← hflipkeys.2]
      exact hlook
    · have hscore : (Sqlite.flipScore r w p).score = sub (add r.score w) p := by
        unfold Sqlite.flipScore
        by_cases hw : is_positive w = true <;> simp [hw]
      rw [hscore]
      obtain ⟨hadd, hcadd⟩ := add_int_spec r.score w hcs hcw
      obtain ⟨hsub, -⟩ := sub_int_spec (add r.score w) p hcadd hcp
      rw [hsub, hadd]
    · intro hw
      obtain ⟨hd1, hu1⟩ := hcnt.1 hw
      have hup : (Sqlite.flipScore r w p).upvote = u64succ r.upvote := by
        unfold Sqlite.flipScore
        simp [hw]
      have hdn : (Sqlite.flipScore r w p).downvote = u64pred r.downvote := by
        unfold Sqlite.flipScore
        simp [hw]
      rw [hup, hdn]
      exact ⟨u64succ_eq hu1, u64pred_eq hd1 hdb⟩
    · intro hw
      obtain ⟨hu1, hd1⟩ := hcnt.2 hw
      have hup : (Sqlite.flipScore r w p).upvote = u64pred r.upvote := by
        unfold Sqlite.flipScore
        simp [hw]
      have hdn : (Sqlite.flipScore r w p).downvote = u64succ r.downvote := by
        unfold Sqlite.flipScore
        simp [hw]
      rw [hup, hdn]
      exact ⟨u64pred_eq hu1 hub, u64succ_eq hd1⟩

/-- Witness for C2: target `"T"` in field `"F"` holds score `"5"` with one
upvote and one downvote; voter `"A"` flips a `"-1"` downvote to `"1"`. -/
theorem C2_witness :
    Sqlite.lookupVote (DB.mk [⟨['T'], ['F'], ['5'], 1, 1⟩] [⟨['A'], ['T'], ['-', '1']⟩] [])
        ['A'] ['T'] = some ['-', '1']
    ∧ ((Sqlite.vote (DB.mk [⟨['T'], ['F'], ['5'], 1, 1⟩] [⟨['A'], ['T'], ['-', '1']⟩] [])
        ['A'] ['T'] ['1'] ['F']).1 = Except.ok ()
      ∧ Sqlite.lookupVote (Sqlite.vote
          (DB.mk [⟨['T'], ['F'], ['5'], 1, 1⟩] [⟨['A'], ['T'], ['-', '1']⟩] [])
          ['A'] ['T'] ['1'] ['F']).2 ['A'] ['T'] = some ['1']
      ∧ ∃ r2 : Score,
          Sqlite.lookupScore (Sqlite.vote
            (DB.mk [⟨['T'], ['F'], ['5'], 1, 1⟩] [⟨['A'], ['T'], ['-', '1']⟩] [])
            ['A'] ['T'] ['1'] ['F']).2 ['T'] ['F'] = some r2
          ∧ toInt r2.score
              = toInt (['5'] : List Char) + toInt (['1'] : List Char)
                - toInt (['-', '1'] : List Char)
          ∧ (is_positive ['1'] = true → r2.upvote = 1 + 1 ∧ r2.downvote = 1 - 1)
          ∧ (is_positive ['1'] = false → r2.upvote = 1 - 1 ∧ r2.downvote = 1 + 1)) :=
  ⟨by decide,
   C2_flip_updates (DB.mk [⟨['T'], ['F'], ['5'], 1, 1⟩] [⟨['A'], ['T'], ['-', '1']⟩] [])
     ['A'] ['T'] ['F'] ['1'] ['-', '1'] ⟨['T'], ['F'], ['5'], 1, 1⟩
     (by decide) (by decide) (by decide) (by decide) (by decide) (by decide)
     (by decide) (by decide) ⟨fun _ => by decide, fun h => absurd h (by decide)⟩⟩

/-- C3 counterexample: on a fresh database with no Score Aggregate row for
(`"T"`, `"F"`), a first vote of weight `"1"` returns `Ok` — but no Score
Aggregate row is persisted at all (the `UPDATE` touches zero rows), contrary
to the claimed lazily-created row with score = w, upvote = 1, downvote = 0. -/
theorem C3_counterexample :
    (Sqlite.vote (DB.mk [] [] []) ['A'] ['T'] ['1'] ['F']).1 = Except.ok ()
    ∧ Sqlite.lookupScore (Sqlite.vote (DB.mk [] [] []) ['A'] ['T'] ['1'] ['F']).2
        ['T'] ['F'] = none := by
  exact ⟨rfl, by decide⟩

/-- C3 (amended): a successful first vote (no prior vote record) with
positive canonical weight `w` inserts the Vote Record and applies
score `+= w`, `upvote += 1` to the Score Aggregate row — but only if that
row already exists (it is created by `upsert_post`/`upsert_comment`, not by
the ledger): when the (target, field) row is absent the call still returns
`Ok`, yet no Score Aggregate row is created, because the aggregate write is
a SQL `UPDATE` that affects zero rows. -/
theorem C3_first_vote_amended (db : DB) (frm toAddr field_address w : List Char)
    (hnov : Sqlite.lookupVote db frm toAddr = none)
    (hcw : CanonNat w) (hw0 : w ≠ ['0']) :
    (Sqlite.vote db frm toAddr w field_address).1 = Except.ok ()
    ∧ Sqlite.lookupVote (Sqlite.vote db frm toAddr w field_address).2 frm toAddr = some w
    ∧ (∀ r : Score, Sqlite.lookupScore db toAddr field_address = some r →
        r.upvote + 1 < 2 ^ 64 → CanonInt r.score →
        Sqlite.lookupScore (Sqlite.vote db frm toAddr w field_address).2 toAddr field_address
          = some ⟨toAddr, field_address, add r.score w, r.upvote + 1, r.downvote⟩
        ∧ toInt (add r.score w) = toInt r.score + (valNat w : Int))
    ∧ (Sqlite.lookupScore db toAddr field_address = none →
        Sqlite.lookupScore (Sqlite.vote db frm toAddr w field_address).2 toAddr field_address
          = none) := by
  have hwp : is_positive w = true := by
    unfold is_positive
    simp [canonNat_head_ne_neg hcw]
  have hred : Sqlite.vote db frm toAddr w field_address
      = (Except.ok (), Sqlite.update_score (Sqlite.insertVote db frm toAddr w)
          (Sqlite.firstVoteScore (Sqlite.select_score db toAddr field_address) w)) := by
    unfold Sqlite.vote
    rw [hnov]
  rw [hred]
  refine ⟨rfl, ?_, ?_, ?_⟩
  · rw [show (Except.ok (), Sqlite.update_score (Sqlite.insertVote db frm toAddr w)
        (Sqlite.firstVoteScore (Sqlite.select_score db toAddr field_address) w)).2
        = Sqlite.update_score (Sqlite.insertVote db frm toAddr w)
            (Sqlite.firstVoteScore (Sqlite.select_score db toAddr field_address) w) from rfl]
    rw [lookupVote_update_score]
    exact lookupVote_insertVote db frm toAddr w hnov
  · intro r hrow hub hcs
    obtain ⟨hka, hkf⟩ := lookupScore_keys hrow
    have hsel : Sqlite.select_score db toAddr field_address = r := by
      unfold Sqlite.select_score
      rw [hrow]
    rw [hsel]
    have hfa : (Sqlite.firstVoteScore r w).address = toAddr := by
      unfold Sqlite.firstVoteScore
      simp [hwp, hka]
    have hff : (Sqlite.firstVoteScore r w).field_address = field_address := by
      unfold Sqlite.firstVoteScore
      simp [hwp, hkf]
    have hfs : (Sqlite.firstVoteScore r w).score = add r.score w := by
      unfold Sqlite.firstVoteScore
      simp [hwp]
    have hfu : (Sqlite.firstVoteScore r w).upvote = u64succ r.upvote := by
      unfold Sqlite.firstVoteScore
      simp [hwp]
    have hfd : (Sqlite.firstVoteScore r w).downvote = r.downvote := by
      unfold Sqlite.firstVoteScore
      simp [hwp]
    have hsome : (Sqlite.lookupScore (Sqlite.insertVote db frm toAddr w)
        (Sqlite.firstVoteScore r w).address (Sqlite.firstVoteScore r w).field_address).isSome := by
      rw [lookupScore_insertVote, hfa, hff, hrow]
      rfl
    have hlook := lookupScore_update_score (Sqlite.insertVote db frm toAddr w)
      (Sqlite.firstVoteScore r w) hsome
    rw [hfa, hff, hfs, hfu, hfd] at hlook
    constructor
    · rw [show (Except.ok (), Sqlite.update_score (Sqlite.insertVote db frm toAddr w)
          (Sqlite.firstVoteScore r w)).2
          = Sqlite.update_score (Sqlite.insertVote db frm toAddr w)
              (Sqlite.firstVoteScore r w) from rfl]
      rw [hlook, u64succ_eq hub]
    · obtain ⟨hadd, -⟩ := add_int_spec r.score w hcs (canonInt_of_canonNat hcw)
      rw [hadd, toInt_canonNat hcw]
  · intro hnone
    rw [show (Except.ok (), Sqlite.update_score (Sqlite.insertVote db frm toAddr w)
        (Sqlite.firstVoteScore (Sqlite.select_score db toAddr field_address) w)).2
        = Sqlite.update_score (Sqlite.insertVote db frm toAddr w)
            (Sqlite.firstVoteScore (Sqlite.select_score db toAddr field_address) w) from rfl]
    have hseld : Sqlite.select_score db toAddr field_address
        = ⟨toAddr, field_address, ['0'], 0, 0⟩ := by
      unfold Sqlite.select_score
      rw [hnone]
    rw [hseld]
    have hkeys : (Sqlite.firstVoteScore (⟨toAddr, field_address, ['0'], 0, 0⟩ : Score) w).address
        = toAddr ∧ (Sqlite.firstVoteScore (⟨toAddr, field_address, ['0'], 0, 0⟩ : Score) w).field_address
        = field_address := by
      unfold Sqlite.firstVoteScore
      simp [hwp]
    have hnone2 : Sqlite.lookupScore (Sqlite.insertVote db frm toAddr w)
        (Sqlite.firstVoteScore (⟨toAddr, field_address, ['0'], 0, 0⟩ : Score) w).address
        (Sqlite.firstVoteScore (⟨toAddr, field_address, ['0'], 0, 0⟩ : Score) w).field_address
        = none := by
      rw [lookupScore_insertVote, hkeys.1, hkeys.2]
      exact hnone
    have := update_score_of_none (Sqlite.insertVote db frm toAddr w)
      (Sqlite.firstVoteScore (⟨toAddr, field_address, ['0'], 0, 0⟩ : Score) w) hnone2
    rw [this, lookupScore_insertVote]
    exact hnone

/-- Witness for C3 (amended): with an existing all-zero aggregate row the
first vote persists score `"1"`, upvote 1. -/
theorem C3_witness :
    Sqlite.lookupVote (DB.mk [⟨['T'], ['F'], ['0'], 0, 0⟩] [] []) ['A'] ['T'] = none
    ∧ CanonNat ['1'] ∧ (['1'] : List Char) ≠ ['0']
    ∧ (Sqlite.vote (DB.mk [⟨['T'], ['F'], ['0'], 0, 0⟩] [] []) ['A'] ['T'] ['1'] ['F']).1
        = Except.ok ()
    ∧ Sqlite.lookupVote (Sqlite.vote (DB.mk [⟨['T'], ['F'], ['0'], 0, 0⟩] [] [])
        ['A'] ['T'] ['1'] ['F']).2 ['A'] ['T'] = some ['1'] :=
  ⟨by decide, by decide, by decide,
   (C3_first_vote_amended (DB.mk [⟨['T'], ['F'], ['0'], 0, 0⟩] [] []) ['A'] ['T'] ['F'] ['1']
     (by decide) (by decide) (by decide)).1,
   (C3_first_vote_amended (DB.mk [⟨['T'], ['F'], ['0'], 0, 0⟩] [] []) ['A'] ['T'] ['F'] ['1']
     (by decide) (by decide) (by decide)).2.1⟩

/-- C9: the flip branch's `u64` counter decrements are unguarded: when an
opposite-sign vote record exists but the aggregate's decremented counter is 0
(e.g. no aggregate row exists, so `select_score` returns the all-zero
default), the subtraction underflows and wraps to `2^64 − 1` instead of
failing, while the call still reports success — `score.downvote -= 1` when
the new weight is positive, and symmetrically `score.upvote -= 1` when the
new weight is negative. -/
theorem C9_counter_underflow (db : DB) (frm toAddr field_address w p : List Char)
    (hv : Sqlite.lookupVote db frm toAddr = some p) :
    (is_positive p = false → is_positive w = true →
      (Sqlite.select_score db toAddr field_address).downvote = 0 →
      (Sqlite.flipScore (Sqlite.select_score db toAddr field_address) w p).downvote
        = 2 ^ 64 - 1
      ∧ (Sqlite.vote db frm toAddr w field_address).1 = Except.ok ())
    ∧ (is_positive p = true → is_positive w = false →
      (Sqlite.select_score db toAddr field_address).upvote = 0 →
      (Sqlite.flipScore (Sqlite.select_score db toAddr field_address) w p).upvote
        = 2 ^ 64 - 1
      ∧ (Sqlite.vote db frm toAddr w field_address).1 = Except.ok ()) := by
  constructor
  · intro hpneg hwpos hdz
    constructor
    · have h1 : (Sqlite.flipScore (Sqlite.select_score db toAddr field_address) w p).downvote
          = u64pred (Sqlite.select_score db toAddr field_address).downvote := by
        unfold Sqlite.flipScore
        simp [hwpos]
      rw [h1, hdz, u64pred_zero]
    · unfold Sqlite.vote
      rw [hv]
      have hne : ¬ is_positive p = is_positive w := by
        rw [hpneg, hwpos]
        simp
      simp [hne]
  · intro hppos hwneg huz
    constructor
    · have h1 : (Sqlite.flipScore (Sqlite.select_score db toAddr field_address) w p).upvote
          = u64pred (Sqlite.select_score db toAddr field_address).upvote := by
        unfold Sqlite.flipScore
        simp [hwneg]
      rw [h1, huz, u64pred_zero]
    · unfold Sqlite.vote
      rw [hv]
      have hne : ¬ is_positive p = is_positive w := by
        rw [hppos, hwneg]
        simp
      simp [hne]

/-- Witness for C9, exercising both directions on targets with no aggregate
row (all-zero default): voter `"A"` flips a stored `"-1"` to `"1"` and the
in-memory downvote counter wraps; voter `"B"` flips a stored `"1"` to `"-1"`
and the in-memory upvote counter wraps. -/
theorem C9_witness :
    (Sqlite.lookupVote (DB.mk [] [⟨['A'], ['T'], ['-', '1']⟩] []) ['A'] ['T']
      = some ['-', '1']
    ∧ (Sqlite.flipScore (Sqlite.select_score (DB.mk [] [⟨['A'], ['T'], ['-', '1']⟩] [])
        ['T'] ['F']) ['1'] ['-', '1']).downvote = 2 ^ 64 - 1
    ∧ (Sqlite.vote (DB.mk [] [⟨['A'], ['T'], ['-', '1']⟩] []) ['A'] ['T'] ['1'] ['F']).1
        = Except.ok ())
    ∧ (Sqlite.lookupVote (DB.mk [] [⟨['B'], ['T'], ['1']⟩] []) ['B'] ['T'] = some ['1']
    ∧ (Sqlite.flipScore (Sqlite.select_score (DB.mk [] [⟨['B'], ['T'], ['1']⟩] [])
        ['T'] ['F']) ['-', '1'] ['1']).upvote = 2 ^ 64 - 1
    ∧ (Sqlite.vote (DB.mk [] [⟨['B'], ['T'], ['1']⟩] []) ['B'] ['T'] ['-', '1'] ['F']).1
        = Except.ok ()) :=
  ⟨⟨by decide,
    ((C9_counter_underflow (DB.mk [] [⟨['A'], ['T'], ['-', '1']⟩] []) ['A'] ['T'] ['F']
      ['1'] ['-', '1'] (by decide)).1 (by decide) (by decide) (by decide)).1,
    ((C9_counter_underflow (DB.mk [] [⟨['A'], ['T'], ['-', '1']⟩] []) ['A'] ['T'] ['F']
      ['1'] ['-', '1'] (by decide)).1 (by decide) (by decide) (by decide)).2⟩,
   ⟨by decide,
    ((C9_counter_underflow (DB.mk [] [⟨['B'], ['T'], ['1']⟩] []) ['B'] ['T'] ['F']
      ['-', '1'] ['1'] (by decide)).2 (by decide) (by decide) (by decide)).1,
    ((C9_counter_underflow (DB.mk [] [⟨['B'], ['T'], ['1']⟩] []) ['B'] ['T'] ['F']
      ['-', '1'] ['1'] (by decide)).2 (by decide) (by decide) (by decide)).2⟩⟩

/-- C10: `Comment::upvote`, `Comment::downvote`, `Post::upvote` and
`Post::downvote` mutate the in-memory object's score and counter
unconditionally, even when the ledger rejects the vote: a rejected duplicate
returns the "Already voted" error, yet the object's in-memory score has
still changed by the vote weight while the persisted state is unchanged. -/
theorem C10_local_mutation_on_rejected_vote :
    (∀ (db : DB) (c : Comment) (voter vs p : List Char),
      inner_calculate_vote_score db c.field_address voter c.score = some vs →
      vs ≠ ['0'] →
      Sqlite.lookupVote db voter c.address = some p →
      is_positive p = is_positive vs →
      Comment.castUpvote db c voter
        = some (Except.error ("Already voted"),
            { c with score := add c.score vs, upvote := u64succ c.upvote }, db))
    ∧ (∀ (db : DB) (c : Comment) (voter vs p : List Char),
      inner_calculate_vote_score db c.field_address voter c.score = some vs →
      vs ≠ ['0'] →
      Sqlite.lookupVote db voter c.address = some p →
      is_positive p = false →
      Comment.castDownvote db c voter
        = some (Except.error ("Already voted"),
            { c with score := sub c.score vs, downvote := u64succ c.downvote }, db))
    ∧ (∀ (db : DB) (pst : Post) (voter vs p : List Char),
      inner_calculate_vote_score db pst.to_address voter pst.score = some vs →
      vs ≠ ['0'] →
      Sqlite.lookupVote db voter pst.address = some p →
      is_positive p = is_positive vs →
      Post.castUpvote db pst voter
        = some (Except.error ("Already voted"),
            { pst with score := add pst.score vs, upvote := u64succ pst.upvote }, db))
    ∧ (∀ (db : DB) (pst : Post) (voter vs p : List Char),
      inner_calculate_vote_score db pst.to_address voter pst.score = some vs →
      vs ≠ ['0'] →
      Sqlite.lookupVote db voter pst.address = some p →
      is_positive p = false →
      Post.castDownvote db pst voter
        = some (Except.error ("Already voted"),
            { pst with score := sub pst.score vs, downvote := u64succ pst.downvote }, db)) := by
  refine ⟨?_, ?_, ?_, ?_⟩
  · intro db c voter vs p hvs hnz hdup hsgn
    unfold Comment.castUpvote
    rw [hvs]
    dsimp only
    rw [if_neg hnz]
    unfold Sqlite.upvote Sqlite.vote
    rw [hdup]
    simp [hsgn]
  · intro db c voter vs p hvs hnz hdup hsgn
    unfold Comment.castDownvote
    rw [hvs]
    dsimp only
    rw [if_neg hnz]
    unfold Sqlite.downvote Sqlite.vote
    rw [hdup]
    have hneg : is_positive ('-' :: vs) = false := by
      unfold is_positive
      simp
    simp [hsgn, hneg]
  · intro db pst voter vs p hvs hnz hdup hsgn
    unfold Post.castUpvote
    rw [hvs]
    dsimp only
    rw [if_neg hnz]
    unfold Sqlite.upvote Sqlite.vote
    rw [hdup]
    simp [hsgn]
  · intro db pst voter vs p hvs hnz hdup hsgn
    unfold Post.castDownvote
    rw [hvs]
    dsimp only
    rw [if_neg hnz]
    unfold Sqlite.downvote Sqlite.vote
    rw [hdup]
    have hneg : is_positive ('-' :: vs) = false := by
      unfold is_positive
      simp
    simp [hsgn, hneg]

/-- Witness for C10: field `"F"` exists, the voter `"A"` has already upvoted
comment `"C"`; the repeated upvote returns the error while the in-memory
comment score moves from `"0"` to `"1"`. -/
theorem C10_witness :
    inner_calculate_vote_score
        (DB.mk [] [⟨['A'], ['C'], ['1']⟩] [⟨['F'], ['f']⟩])
        (['F'] : List Char) ['A'] ['0'] = some ['1']
    ∧ Comment.castUpvote (DB.mk [] [⟨['A'], ['C'], ['1']⟩] [⟨['F'], ['f']⟩])
        (Comment.mk ['C'] ['A'] ['P'] ['0'] 0 0 [] 0 ['F']) ['A']
        = some (Except.error ("Already voted"),
            { Comment.mk ['C'] ['A'] ['P'] ['0'] 0 0 [] 0 ['F'] with
                score := add ['0'] ['1'], upvote := u64succ 0 },
            DB.mk [] [⟨['A'], ['C'], ['1']⟩] [⟨['F'], ['f']⟩]) :=
  ⟨by decide,
   C10_local_mutation_on_rejected_vote.1
     (DB.mk [] [⟨['A'], ['C'], ['1']⟩] [⟨['F'], ['f']⟩])
     (Comment.mk ['C'] ['A'] ['P'] ['0'] 0 0 [] 0 ['F']) ['A'] ['1'] ['1']
     (by decide) (by decide) (by decide) (by decide)⟩

end RankForum